import Mathlib

/-!
# Verification of the Huffman coding tool

A shallow embedding of `huffman_tool.py` (class `HuffmanCoding` and the
module-level helpers), together with proofs and refutations of the
specification's claims about it.

Conventions of the embedding:

* Python bitstrings (strings over the characters `'0'`/`'1'`) are modelled as
  `List Bool`, with `false` standing for `'0'` and `true` for `'1'`.
* A Python variable that holds either a `Node` object or `None` is modelled
  by the type `Node α`, which has a constructor `Node.null` for `None`
  alongside the object constructor `Node.mk`; this mirrors Python's nullable
  references directly.
* Python `dict`s are modelled as insertion-ordered association lists; updating
  an existing key updates the stored value in place, preserving entry order,
  exactly as CPython dictionaries do.
* `heapq` is modelled function by function (`_siftdown`, `_siftup`, `heapify`,
  `heappop`, `heappush`) following the pure-Python reference implementation
  that CPython documents and runs, with `Node.__lt__` comparing `freq` only,
  as in the source.  The two sift loops are written with an explicit fuel
  argument so that they are structurally recursive; the wrappers pass fuel
  that provably exceeds the number of iterations either loop can make
  (`_siftdown` strictly decreases `pos ≥ 0` each iteration, `_siftup`
  strictly increases `pos < endpos`), so the fuel never runs out and the
  fuelled functions compute exactly the Python loops.
* List indexing out of range cannot occur on the reachable states; the
  embedding uses `List.getD` with default `Node.null` there.
* Code that can raise an exception is modelled with `Option`: `none` is an
  uncaught Python exception (e.g. `int('', 2)` raising `ValueError` inside
  `pack_bits`, or `heap[0]` raising `IndexError` on an empty heap).
-/

/-- Python class `Node`, together with the `None` reference: `Node.null` is
Python `None`, and `Node.mk char freq left right` is a `Node` object whose
`char` is `None` exactly on internal nodes and whose `left`/`right` are
`None` exactly on leaves.  `Node.__lt__` compares `freq` only. -/
inductive Node (α : Type) : Type where
  | null : Node α
  | mk (char : Option α) (freq : Nat) (left right : Node α) : Node α
deriving DecidableEq

/-- Field accessor `node.char` (never read on `None` in the source). -/
def Node.char {α : Type} : Node α → Option α
  | .null => none
  | .mk c _ _ _ => c

/-- Field accessor `node.freq` (never read on `None` in the source). -/
def Node.freq {α : Type} : Node α → Nat
  | .null => 0
  | .mk _ f _ _ => f

/-- Field accessor `node.left` (never read on `None` in the source). -/
def Node.left {α : Type} : Node α → Node α
  | .null => .null
  | .mk _ _ l _ => l

/-- Field accessor `node.right` (never read on `None` in the source). -/
def Node.right {α : Type} : Node α → Node α
  | .null => .null
  | .mk _ _ _ r => r

/-- The loop of CPython `heapq._siftdown(heap, startpos, pos)`, with explicit
fuel.  On entry the item being sifted is `newitem` (Python stores it at
`heap[pos]`; the loop reads only strictly smaller indices and finally writes
`newitem` at its resting place).  Moves `newitem` up towards `startpos` while
it is `<` its parent.  Each iteration strictly decreases `pos`, so fuel
`≥ pos` never runs out; on exhausted fuel `pos = 0 ≤ startpos` and the
returned value coincides with the loop exit. -/
def siftdownAux {α : Type} (startpos : Nat) (newitem : Node α) :
    Nat → List (Node α) → Nat → List (Node α)
  | 0, heap, pos => heap.set pos newitem
  | fuel + 1, heap, pos =>
    if startpos < pos then
      let parentpos := (pos - 1) / 2
      let parent := heap.getD parentpos .null
      if newitem.freq < parent.freq then
        siftdownAux startpos newitem fuel (heap.set pos parent) parentpos
      else heap.set pos newitem
    else heap.set pos newitem

/-- CPython `heapq._siftdown(heap, startpos, pos)`: fuel `pos` suffices. -/
def siftdown {α : Type} (heap : List (Node α)) (startpos pos : Nat) (newitem : Node α) :
    List (Node α) :=
  siftdownAux startpos newitem pos heap pos

/-- The loop of CPython `heapq._siftup(heap, pos)`, with explicit fuel:
`endpos` is the (fixed) heap length, `startpos` the original position,
`newitem` the item taken out of `heap[pos]` at entry.  Follows the smaller
child downward, then calls `_siftdown`.  Each iteration strictly increases
`pos` while `pos < endpos`, so fuel `≥ endpos` never runs out; on exhausted
fuel the loop guard is false and the returned value coincides with the loop
exit. -/
def siftupAux {α : Type} (endpos startpos : Nat) (newitem : Node α) :
    Nat → List (Node α) → Nat → List (Node α)
  | 0, heap, pos => siftdown (heap.set pos newitem) startpos pos newitem
  | fuel + 1, heap, pos =>
    if 2 * pos + 1 < endpos then
      let childpos := 2 * pos + 1
      let rightpos := childpos + 1
      let childpos :=
        if rightpos < endpos ∧
            ¬ (heap.getD childpos .null).freq < (heap.getD rightpos .null).freq
        then rightpos else childpos
      siftupAux endpos startpos newitem fuel (heap.set pos (heap.getD childpos .null)) childpos
    else siftdown (heap.set pos newitem) startpos pos newitem

/-- CPython `heapq._siftup(heap, pos)`: fuel `endpos` suffices. -/
def siftup {α : Type} (heap : List (Node α)) (pos : Nat) : List (Node α) :=
  siftupAux heap.length pos (heap.getD pos .null) heap.length heap pos

/-- The loop of CPython `heapq.heapify(x)`: `for i in reversed(range(n//2)):
_siftup(x, i)`.  `heapifyLoop h (i+1)` performs the sifts at `i, i-1, …, 0`. -/
def heapifyLoop {α : Type} : List (Node α) → Nat → List (Node α)
  | h, 0 => h
  | h, i + 1 => heapifyLoop (siftup h i) i

/-- CPython `heapq.heapify`. -/
def heapify {α : Type} (heap : List (Node α)) : List (Node α) :=
  heapifyLoop heap (heap.length / 2)

/-- CPython `heapq.heappop`.  Returns `(popped item, rest of heap)`; the
`none` result models the `IndexError` of `heap.pop()` on an empty list. -/
def heappop {α : Type} : List (Node α) → Option (Node α) × List (Node α)
  | [] => (none, [])
  | x :: xs =>
    let lastelt := (x :: xs).getLast (List.cons_ne_nil x xs)
    match (x :: xs).dropLast with
    | [] => (some lastelt, [])
    | r0 :: rtail => (some r0, siftup ((r0 :: rtail).set 0 lastelt) 0)

/-- CPython `heapq.heappush`. -/
def heappush {α : Type} (heap : List (Node α)) (item : Node α) : List (Node α) :=
  siftdown (heap ++ [item]) 0 heap.length item

/-- `HuffmanCoding.build_frequency_table`, inner update
`freq[token] = freq.get(token, 0) + 1` on the association-list dict. -/
def dictIncr {α : Type} [DecidableEq α] : List (α × Nat) → α → List (α × Nat)
  | [], a => [(a, 1)]
  | (k, v) :: rest, a => if k = a then (k, v + 1) :: rest else (k, v) :: dictIncr rest a

/-- `HuffmanCoding.build_frequency_table(tokens)`. -/
def build_frequency_table {α : Type} [DecidableEq α] (tokens : List α) : List (α × Nat) :=
  tokens.foldl dictIncr []

/-- The `while len(heap) > 1` loop of `HuffmanCoding.build_huffman_tree`:
pop the two smallest nodes and push their parent.  The loop runs at most
`length - 1` times, so calling it with `fuel = length` (as
`build_huffman_tree` does) runs it to completion. -/
def buildLoop {α : Type} : Nat → List (Node α) → List (Node α)
  | 0, heap => heap
  | fuel + 1, heap =>
    if heap.length > 1 then
      match heappop heap with
      | (some left, h1) =>
        match heappop h1 with
        | (some right, h2) =>
          buildLoop fuel (heappush h2 (.mk none (left.freq + right.freq) left right))
        | (none, _) => heap
      | (none, _) => heap
    else heap

/-- `HuffmanCoding.build_huffman_tree(freq_table)`.  The `none` result models
the `IndexError` of `heap[0]` when the frequency table is empty. -/
def build_huffman_tree {α : Type} (freq_table : List (α × Nat)) : Option (Node α) :=
  let heap := heapify (freq_table.map fun p => Node.mk (some p.1) p.2 .null .null)
  (buildLoop heap.length heap).head?

/-- `HuffmanCoding.generate_codes(node, prefix)` restricted to its pure
effect: the `self.codes` mapping it accumulates, as an association list in
insertion (traversal) order.  `None` contributes nothing; a node with `char`
set is recorded with code `prefix if prefix else "0"` and its children are
not visited; an internal node recurses left with `prefix + "0"` and right
with `prefix + "1"`. -/
def generate_codes {α : Type} : Node α → List Bool → List (α × List Bool)
  | .null, _ => []
  | .mk (some c) _ _ _, pfx => [(c, if pfx.isEmpty then [false] else pfx)]
  | .mk none _ l r, pfx =>
    generate_codes l (pfx ++ [false]) ++ generate_codes r (pfx ++ [true])

/-- Shared body of `HuffmanCoding.encode` after tokenization: build the
frequency table and tree, generate codes, and concatenate the per-token
codes.  `none` models the `IndexError` raised by `build_huffman_tree` when
the token list is empty (reachable in word mode on whitespace-only text). -/
def encodeTokens {α : Type} [DecidableEq α] (tokens : List α) :
    Option (List Bool × List (α × Nat)) :=
  let freq_table := build_frequency_table tokens
  match build_huffman_tree freq_table with
  | none => none
  | some root =>
    let codes := generate_codes root []
    some (tokens.flatMap fun sym => (List.lookup sym codes).getD [], freq_table)

/-- `HuffmanCoding.encode(text, mode="char")`: `if not text: return "", {}`,
then `tokens = list(text)`.  Each one-character Python string is modelled as
a `Char`. -/
def encode_char (text : String) : Option (List Bool × List (Char × Nat)) :=
  if text = "" then some ([], [])
  else encodeTokens text.toList

/-- `HuffmanCoding.encode(text, mode="word")`: `tokens = text.split()` —
split on whitespace runs, discarding empty tokens. -/
def encode_word (text : String) : Option (List Bool × List (String × Nat)) :=
  if text = "" then some ([], [])
  else encodeTokens ((text.split Char.isWhitespace).filter fun w => w ≠ "")

/-- The `for bit in encoded_text` loop of `HuffmanCoding.decode`.  When the
cursor is `None` (the "defensive" case) the current bit is consumed and the
cursor resets to the root; otherwise it moves to the left child on `'0'` and
the right child on `'1'`, emitting a symbol and resetting to the root
whenever it lands on a non-`None` node whose `char` is set. -/
def decodeLoop {α : Type} (root : Node α) : Node α → List Bool → List α
  | _, [] => []
  | .null, _ :: bits => decodeLoop root root bits
  | .mk c f l r, b :: bits =>
    match (if b = false then (Node.mk c f l r).left else (Node.mk c f l r).right) with
    | .null => decodeLoop root .null bits
    | .mk mc mf ml mr =>
      match mc with
      | some c2 => c2 :: decodeLoop root root bits
      | none => decodeLoop root (.mk mc mf ml mr) bits

/-- `HuffmanCoding.decode(encoded_text, freq_table, mode)` up to the final
join: returns the list of decoded symbols.  Empty input or empty table
returns `[]` (`if not encoded_text or not freq_table: return ""`). -/
def decodeGen {α : Type} (encoded : List Bool) (freq_table : List (α × Nat)) : List α :=
  if encoded.isEmpty || freq_table.isEmpty then []
  else
    match build_huffman_tree freq_table with
    | none => []
    | some root => decodeLoop root root encoded

/-- `decode` in char mode: `"".join(decoded)`. -/
def decode_char (encoded : List Bool) (freq_table : List (Char × Nat)) : String :=
  String.mk (decodeGen encoded freq_table)

/-- `decode` in word mode: `" ".join(decoded)`. -/
def decode_word (encoded : List Bool) (freq_table : List (String × Nat)) : String :=
  String.intercalate " " (decodeGen encoded freq_table)

/-- `int(bitstring, 2)` on a nonempty string of `'0'`/`'1'` digits. -/
def natOfBits (bits : List Bool) : Nat :=
  bits.foldl (fun acc b => 2 * acc + (if b then 1 else 0)) 0

/-- `n.to_bytes(len, byteorder='big')`: the `len` base-256 digits of `n`,
most significant first. -/
def natToBytes (n len : Nat) : List Nat :=
  (List.range len).map fun i => n / 256 ^ (len - 1 - i) % 256

/-- `HuffmanCoding.pack_bits(bitstring)`.  `padding = 8 - len % 8`; bits are
appended only when `padding != 8`, yet `padding` is returned unchanged.  The
`none` result models the `ValueError` of `int('', 2)` on the empty
bitstring. -/
def pack_bits (bitstring : List Bool) : Option (List Nat × Nat) :=
  let padding := 8 - bitstring.length % 8
  let padded := if padding ≠ 8 then bitstring ++ List.replicate padding false else bitstring
  if padded.isEmpty then none
  else some (natToBytes (natOfBits padded) (padded.length / 8), padding)

/-- `f"{byte:08b}"` for a byte value `0 ≤ b < 256`: its eight bits, most
significant first. -/
def byteToBits (b : Nat) : List Bool :=
  (List.range 8).map fun i => b / 2 ^ (7 - i) % 2 == 1

/-- `HuffmanCoding.unpack_bits(byte_data, padding)`: expand every byte to
eight bits and, when `padding` is nonzero (Python truthiness), drop the last
`padding` bits — `bitstring[:-padding]`, which is the empty string whenever
`padding ≥ len(bitstring)`.  No validation is performed and no exception can
be raised. -/
def unpack_bits (byte_data : List Nat) (padding : Nat) : List Bool :=
  let bitstring := byte_data.flatMap byteToBits
  if padding ≠ 0 then bitstring.take (bitstring.length - padding) else bitstring

/-- The core value pipeline of `compress_file` (file I/O elided): encode the
text, then pack the resulting bitstring; `none` is an uncaught exception in
either stage. -/
def compress_core (text : String) : Option ((List Nat × Nat) × List (Char × Nat)) :=
  match encode_char text with
  | none => none
  | some (encoded, freq_table) =>
    match pack_bits encoded with
    | none => none
    | some packed => some (packed, freq_table)

/-- The multiset (as a list) of `(char, freq)` pairs at the code-bearing
leaves of a tree: non-`None` nodes whose `char` is set, exactly the nodes at
which `generate_codes` records an entry. -/
def nodeLeaves {α : Type} : Node α → List (α × Nat)
  | .null => []
  | .mk (some c) f _ _ => [(c, f)]
  | .mk none _ l r => nodeLeaves l ++ nodeLeaves r

/-- `pos` lies in the subtree rooted at `startpos` of the implicit binary
heap: following parent links `(i-1)/2` from `pos` reaches `startpos`. -/
def isAnc (startpos : Nat) : Nat → Prop
  | pos =>
    if h : pos ≤ startpos then pos = startpos
    else isAnc startpos ((pos - 1) / 2)
  termination_by pos => pos
  decreasing_by omega

/-- The binary-heap invariant maintained by `heapq`: every element is at
least its parent (by `freq`, the only field `Node.__lt__` compares). -/
def HeapOrd {α : Type} (h : List (Node α)) : Prop :=
  ∀ j, 0 < j → j < h.length →
    (h.getD ((j - 1) / 2) Node.null).freq ≤ (h.getD j Node.null).freq

/-- The clean shape of the trees that `build_huffman_tree` produces: leaves
are `Node` objects with `char` set and `None` children; internal nodes have
`char = None` and two non-`None` children.  Mirrored as its own inductive
type for the combinatorial theory below. -/
inductive HTree (α : Type) : Type where
  | leaf (w : Nat) (a : α) : HTree α
  | node (t1 t2 : HTree α) : HTree α
deriving DecidableEq

/-- Total weight of a tree: the sum of its leaf weights. -/
def HTree.weight {α : Type} : HTree α → Nat
  | .leaf w _ => w
  | .node t1 t2 => t1.weight + t2.weight

/-- The symbols at the leaves of a tree. -/
def HTree.syms {α : Type} [DecidableEq α] : HTree α → Finset α
  | .leaf _ a => {a}
  | .node t1 t2 => t1.syms ∪ t2.syms

/-- Each symbol occurs in at most one leaf: the alphabets of the two
subtrees of every internal node are disjoint. -/
def HTree.consistent {α : Type} [DecidableEq α] : HTree α → Prop
  | .leaf _ _ => True
  | .node t1 t2 => t1.syms ∩ t2.syms = ∅ ∧ t1.consistent ∧ t2.consistent

/-- The weight of the (unique, in a consistent tree) leaf carrying symbol
`b`; 0 if absent. -/
def HTree.freqS {α : Type} [DecidableEq α] : HTree α → α → Nat
  | .leaf w a, b => if b = a then w else 0
  | .node t1 t2, b => t1.freqS b + t2.freqS b

/-- Depth of the leaf carrying a symbol (0 if the symbol is absent). -/
def HTree.depthS {α : Type} [DecidableEq α] : HTree α → α → Nat
  | .leaf _ _, _ => 0
  | .node t1 t2, b =>
    if b ∈ t1.syms then t1.depthS b + 1
    else if b ∈ t2.syms then t2.depthS b + 1
    else 0

/-- Height: the depth of the deepest leaf. -/
def HTree.height {α : Type} : HTree α → Nat
  | .leaf _ _ => 0
  | .node t1 t2 => max t1.height t2.height + 1

/-- Weighted path length: the cost function Huffman coding minimises.  The
recursive form adds each subtree's weight once per level. -/
def HTree.cost {α : Type} : HTree α → Nat
  | .leaf _ _ => 0
  | .node t1 t2 => t1.weight + t1.cost + t2.weight + t2.cost

/-- A tree is optimum if no consistent tree with the same alphabet and the
same leaf weights has smaller cost. -/
def HTree.optimum {α : Type} [DecidableEq α] (t : HTree α) : Prop :=
  ∀ u : HTree α, u.consistent → t.syms = u.syms → t.freqS = u.freqS →
    t.cost ≤ u.cost

/-- The view of a built `Node` tree as an `HTree`: `none` when the tree is
not of the shape `build_huffman_tree` produces. -/
def toHTree {α : Type} : Node α → Option (HTree α)
  | .null => none
  | .mk (some c) w _ _ => some (.leaf w c)
  | .mk none _ l r =>
    match toHTree l, toHTree r with
    | some t1, some t2 => some (.node t1 t2)
    | _, _ => none

/-- One abstract run of the merge loop over a list of trees: repeatedly
replace a minimum-weight tree `p` and a minimum-weight tree `q` of the rest
by `node p q`, until a single tree remains.  This is exactly what the
`heapq`-based loop does, abstracted from the heap layout. -/
inductive RunH {α : Type} : List (HTree α) → HTree α → Prop where
  | single (t : HTree α) : RunH [t] t
  | step (M : List (HTree α)) (p q : HTree α) (rest : List (HTree α)) (t : HTree α)
      (hperm : List.Perm M (p :: q :: rest))
      (hp : ∀ x ∈ q :: rest, p.weight ≤ x.weight)
      (hq : ∀ x ∈ rest, q.weight ≤ x.weight)
      (hrun : RunH (HTree.node p q :: rest) t) : RunH M t

/-- Replace the leaf carrying symbol `a` by the tree `z` (used to relate a
run state containing a merged tree to the same state with the merge
collapsed to a single leaf). -/
def substS {α : Type} [DecidableEq α] (a : α) (z : HTree α) : HTree α → HTree α
  | .leaf w c => if c = a then z else .leaf w c
  | .node t1 t2 => .node (substS a z t1) (substS a z t2)

/-- Number of leaves carrying symbol `a` (1 or 0 in a consistent tree). -/
def HTree.cnt {α : Type} [DecidableEq α] : HTree α → α → Nat
  | .leaf _ c, a => if c = a then 1 else 0
  | .node t1 t2, a => t1.cnt a + t2.cnt a

/-- Exchange the leaves carrying symbols `a` and `b`: the leaf labelled `a`
becomes `leaf wb b` and the leaf labelled `b` becomes `leaf wa a`.  At every
call site `wa` and `wb` are the true frequencies of `a` and `b`, so the
exchange moves each symbol (with its weight) to the other's position. -/
def swapLeaves {α : Type} [DecidableEq α] (wa : Nat) (a : α) (wb : Nat) (b : α) :
    HTree α → HTree α
  | .leaf w c => if c = a then .leaf wb b else if c = b then .leaf wa a else .leaf w c
  | .node t1 t2 => .node (swapLeaves wa a wb b t1) (swapLeaves wa a wb b t2)

/-- The leaves carrying `a` and `b` are the two children of one internal
node (in either order). -/
inductive SP {α : Type} (a b : α) : HTree α → Prop where
  | pair (w w' : Nat) : SP a b (.node (.leaf w a) (.leaf w' b))
  | pair2 (w w' : Nat) : SP a b (.node (.leaf w b) (.leaf w' a))
  | left {t1 t2 : HTree α} : SP a b t1 → SP a b (.node t1 t2)
  | right {t1 t2 : HTree α} : SP a b t2 → SP a b (.node t1 t2)

/-- Collapse a sibling pair of leaves labelled `a` and `b` into the single
leaf `leaf (w + w') a` carrying their combined weight. -/
def mergeSib {α : Type} [DecidableEq α] (a b : α) : HTree α → HTree α
  | .leaf w c => .leaf w c
  | .node (.leaf w c) (.leaf w' d) =>
    if (c = a ∧ d = b) ∨ (c = b ∧ d = a) then .leaf (w + w') a
    else .node (.leaf w c) (.leaf w' d)
  | .node t1 t2 => .node (mergeSib a b t1) (mergeSib a b t2)

/-- Move symbols `a` and `b` (with their weights) into the positions held by
`c` and `d`, handling every possible coincidence among the four symbols.
Used with `c`, `d` a deepest sibling pair: the result holds `a` and `b` as
siblings. -/
def swapFourSyms {α : Type} [DecidableEq α] (u : HTree α) (a b c d : α) : HTree α :=
  if a = c then
    (if b = d then u else swapLeaves (u.freqS b) b (u.freqS d) d u)
  else if a = d then
    (if b = c then u else swapLeaves (u.freqS b) b (u.freqS c) c u)
  else if b = c then swapLeaves (u.freqS a) a (u.freqS d) d u
  else if b = d then swapLeaves (u.freqS a) a (u.freqS c) c u
  else
    swapLeaves ((swapLeaves (u.freqS a) a (u.freqS c) c u).freqS b) b
      ((swapLeaves (u.freqS a) a (u.freqS c) c u).freqS d) d
      (swapLeaves (u.freqS a) a (u.freqS c) c u)

/-!
## Theorems

First the concrete evaluations that settle the claims about defective
behaviour, then the general lemmas and the claims proved in full generality.
-/

/-- C1: the pack/unpack round trip fails exactly when the bitstring length is
a multiple of 8: `pack_bits` then reports `padding = 8` while appending no
bits, and `unpack_bits` strips 8 genuine bits.  Here `B = "01010101"` packs
to byte `85` with padding 8, and unpacking returns the empty bitstring, not
`B`. -/
theorem c1_pack_unpack_roundtrip_fails_when_byte_aligned :
    pack_bits [false, true, false, true, false, true, false, true] = some ([85], 8) ∧
    unpack_bits [85] 8 = [] ∧
    ([] : List Bool) ≠ [false, true, false, true, false, true, false, true] :=
  ⟨rfl, rfl, by decide⟩

/-- C2: on the already-byte-aligned bitstring `"11111111"`, `pack_bits`
appends zero bits but returns `paddingCount = 8`, which is outside the range
`[0,7]` and differs from the claimed value 0. -/
theorem c2_pack_bits_returns_padding_eight_when_aligned :
    pack_bits (List.replicate 8 true) = some ([255], 8) ∧ 7 < 8 :=
  ⟨rfl, by decide⟩

/-- C3: the char-mode round trip fails on the single-symbol text `"aaaa"`:
`encode` produces the bitstring `"0000"` with table `{'a': 4}`, but `decode`
of that pair returns `""`, not `"aaaa"`. -/
theorem c3_char_roundtrip_fails_on_single_symbol_text :
    encode_char "aaaa" = some (List.replicate 4 false, [('a', 4)]) ∧
    decode_char (List.replicate 4 false) [('a', 4)] = "" ∧
    ("" : String) ≠ "aaaa" :=
  ⟨rfl, rfl, by decide⟩

/-- C4: for the single-entry table `{'a': 4}` the tree is a single leaf and
every occurrence of `'a'` does encode to the one-bit code `"0"`, but `decode`
on that tree emits nothing at all (each bit moves the cursor to the absent
child and the next bit is consumed by the defensive reset), rather than one
symbol per bit. -/
theorem c4_single_leaf_decode_emits_nothing :
    build_huffman_tree [('a', 4)] = some (Node.mk (some 'a') 4 .null .null) ∧
    generate_codes (Node.mk (some 'a') 4 .null .null) [] = [('a', [false])] ∧
    decode_char [false, false, false, false] [('a', 4)] = "" :=
  ⟨rfl, rfl, rfl⟩

/-- C5 counterexample: the frequency tables `[a↦2, b↦2, c↦2]` and
`[c↦2, b↦2, a↦2]` are equal as mappings (one is a permutation of the other),
yet the tree built by `build_huffman_tree` assigns `'a'` a code of length 1
under the first insertion order and of length 2 under the second: removal
order among equal-weight nodes is an artifact of the heap layout, not a
deterministic secondary ordering. -/
theorem c5_equal_tables_different_code_lengths :
    ((build_huffman_tree [('a', 2), ('b', 2), ('c', 2)]).map
      fun root => (List.lookup 'a' (generate_codes root [])).map List.length) =
      some (some 1) ∧
    ((build_huffman_tree [('c', 2), ('b', 2), ('a', 2)]).map
      fun root => (List.lookup 'a' (generate_codes root [])).map List.length) =
      some (some 2) ∧
    List.Perm [('a', 2), ('b', 2), ('c', 2)] [('c', 2), ('b', 2), ('a', 2)] :=
  ⟨rfl, rfl, by decide⟩

/-- C8 counterexample: with `paddingCount = 9` (outside `[0,7]`, and more
bits than the 8 present), `unpack_bits` does not signal any failure — it
returns the empty bitstring; likewise for `paddingCount = 200`. -/
theorem c8_unpack_bits_returns_normally_on_invalid_padding :
    unpack_bits [171] 9 = [] ∧ unpack_bits [171] 200 = [] ∧ 7 < 9 :=
  ⟨rfl, rfl, by decide⟩

/-- C10: `pack_bits` on the empty bitstring hits `int('', 2)`, which raises
`ValueError` (modelled `none`), so the compress pipeline fails on empty text
even though `encode("")` itself succeeds with an empty bitstring and empty
table. -/
theorem c10_pack_bits_fails_on_empty_bitstring :
    pack_bits [] = none ∧ encode_char "" = some ([], []) ∧ compress_core "" = none :=
  ⟨rfl, rfl, rfl⟩

/-- C9: empty input is a defined non-error case: `encode ""` returns an empty
bitstring and empty table in both modes, and `decode` of an empty bitstring
or an empty frequency table returns `""` in both modes. -/
theorem c9_empty_input_is_defined :
    encode_char "" = some ([], []) ∧ encode_word "" = some ([], []) ∧
    (∀ ft : List (Char × Nat), decode_char [] ft = "") ∧
    (∀ ft : List (String × Nat), decode_word [] ft = "") ∧
    (∀ bits : List Bool, decode_char bits [] = "") ∧
    (∀ bits : List Bool, decode_word bits [] = "") := by
  refine ⟨rfl, rfl, fun ft => rfl, fun ft => rfl, fun bits => ?_, fun bits => ?_⟩ <;>
    cases bits <;> rfl

/-- Every code generated under accumulated path `pfx` extends `pfx` and is
non-empty (the root special case emits `"0"`). -/
theorem gen_codes_extend {α : Type} :
    ∀ (t : Node α) (pfx : List Bool) (e : α × List Bool),
      e ∈ generate_codes t pfx → pfx <+: e.2 ∧ e.2 ≠ [] := by
  intro t
  induction t with
  | null => intro pfx e h; simp [generate_codes] at h
  | mk c f l r ihl ihr =>
    intro pfx e h
    cases c with
    | some c0 =>
      simp only [generate_codes, List.mem_singleton] at h
      subst h
      by_cases hp : pfx.isEmpty
      · simp [hp, List.isEmpty_iff.mp hp]
      · simp [hp]
        exact List.ne_nil_of_length_pos
          (List.length_pos.mpr (fun hn => hp (by simp [hn])))
    | none =>
      simp only [generate_codes, List.mem_append] at h
      rcases h with h | h
      · obtain ⟨hpfx, hne⟩ := ihl (pfx ++ [false]) e h
        exact ⟨(List.prefix_append pfx [false]).trans hpfx, hne⟩
      · obtain ⟨hpfx, hne⟩ := ihr (pfx ++ [true]) e h
        exact ⟨(List.prefix_append pfx [true]).trans hpfx, hne⟩

/-- Inside one `generate_codes` traversal, a code that is a prefix of another
generated code can only be that same table entry: codes recorded in the left
subtree extend `pfx ++ [false]` and codes from the right subtree extend
`pfx ++ [true]`, which are incomparable. -/
theorem gen_codes_prefix_imp_eq {α : Type} :
    ∀ (t : Node α) (pfx : List Bool) (e₁ e₂ : α × List Bool),
      e₁ ∈ generate_codes t pfx → e₂ ∈ generate_codes t pfx →
      e₁.2 <+: e₂.2 → e₁ = e₂ := by
  intro t
  induction t with
  | null => intro pfx e₁ e₂ h₁ _ _; simp [generate_codes] at h₁
  | mk c f l r ihl ihr =>
    intro pfx e₁ e₂ h₁ h₂ hpre
    cases c with
    | some c0 =>
      simp only [generate_codes, List.mem_singleton] at h₁ h₂
      rw [h₁, h₂]
    | none =>
      simp only [generate_codes, List.mem_append] at h₁ h₂
      rcases h₁ with h₁ | h₁ <;> rcases h₂ with h₂ | h₂
      · exact ihl (pfx ++ [false]) e₁ e₂ h₁ h₂ hpre
      · exfalso
        have p₁ := ((gen_codes_extend l (pfx ++ [false]) e₁ h₁).1).trans hpre
        have p₂ := (gen_codes_extend r (pfx ++ [true]) e₂ h₂).1
        have hle : (pfx ++ [false]).length ≤ (pfx ++ [true]).length := by simp
        have := (List.prefix_of_prefix_length_le p₁ p₂ hle).eq_of_length (by simp)
        simp at this
      · exfalso
        have p₁ := ((gen_codes_extend r (pfx ++ [true]) e₁ h₁).1).trans hpre
        have p₂ := (gen_codes_extend l (pfx ++ [false]) e₂ h₂).1
        have hle : (pfx ++ [true]).length ≤ (pfx ++ [false]).length := by simp
        have := (List.prefix_of_prefix_length_le p₁ p₂ hle).eq_of_length (by simp)
        simp at this
      · exact ihr (pfx ++ [true]) e₁ e₂ h₁ h₂ hpre

/-- C6: every code table produced by `generate_codes` from a tree is
prefix-free: each recorded code is non-empty, and for entries carrying
distinct symbols neither code is a prefix of the other. -/
theorem c6_generate_codes_prefix_free {α : Type} (t : Node α) (e₁ e₂ : α × List Bool)
    (h₁ : e₁ ∈ generate_codes t []) (h₂ : e₂ ∈ generate_codes t []) :
    e₁.2 ≠ [] ∧ (e₁.1 ≠ e₂.1 → ¬ e₁.2 <+: e₂.2) :=
  ⟨(gen_codes_extend t [] e₁ h₁).2,
   fun hne hp => hne (congrArg Prod.fst (gen_codes_prefix_imp_eq t [] e₁ e₂ h₁ h₂ hp))⟩

/-- Witness for C6 on the concrete tree with codes `a ↦ 0`, `b ↦ 10`,
`c ↦ 11`. -/
theorem c6_generate_codes_prefix_free_witness :
    (('a', [false]) : Char × List Bool).2 ≠ [] ∧
      ((('a', [false]) : Char × List Bool).1 ≠ (('b', [true, false]) : Char × List Bool).1 →
        ¬ ([false] : List Bool) <+: [true, false]) :=
  c6_generate_codes_prefix_free
    (.mk none 6 (.mk (some 'a') 3 .null .null)
      (.mk none 3 (.mk (some 'b') 2 .null .null) (.mk (some 'c') 1 .null .null)))
    ('a', [false]) ('b', [true, false]) (by decide) (by decide)

/-- Expanding a byte list yields eight bits per byte. -/
theorem flatMap_byteToBits_length (byte_data : List Nat) :
    (byte_data.flatMap byteToBits).length = 8 * byte_data.length := by
  induction byte_data with
  | nil => simp
  | cons b bs ih => simp [byteToBits, ih]; ring

/-- C8 (amended): `unpack_bits` performs no validation and never fails: for
any positive `padding` — in range or not, larger than the available bits or
not — it silently returns a bitstring of exactly `8·len − padding` bits
(truncated at zero), so an over-large padding yields the empty bitstring
rather than an error. -/
theorem c8_unpack_bits_truncates_silently (byte_data : List Nat) (padding : Nat)
    (hp : 0 < padding) :
    (unpack_bits byte_data padding).length = 8 * byte_data.length - padding := by
  have hlen := flatMap_byteToBits_length byte_data
  simp only [unpack_bits]
  rw [if_pos (by omega : padding ≠ 0), List.length_take, hlen]
  omega

/-- Witness for C8 at `byte_data = [171]`, `padding = 9`. -/
theorem c8_unpack_bits_truncates_silently_witness :
    0 < 9 ∧ (unpack_bits [171] 9).length = 8 * [171].length - 9 :=
  ⟨by decide, c8_unpack_bits_truncates_silently [171] 9 (by decide)⟩

/-- Writing back the element already at position `i` leaves a list
unchanged. -/
theorem set_getD_self {β : Type} : ∀ (l : List β) (i : Nat) (d : β), l.set i (l.getD i d) = l
  | [], _, _ => by simp
  | _ :: _, 0, _ => by simp
  | a :: t, i + 1, d => by
    rw [List.getD_cons_succ, List.set_cons_succ, set_getD_self t i d]

/-- Moving the element at position `k` to the front while writing `x` into
position `k` is a permutation of pushing `x` in front. -/
theorem cons_getD_set_perm {β : Type} :
    ∀ (t : List β) (k : Nat) (x d : β), k < t.length →
      List.Perm (t.getD k d :: t.set k x) (x :: t)
  | b :: s, 0, x, d, _ => List.Perm.swap x b s
  | b :: s, k + 1, x, d, h => by
    have ih := cons_getD_set_perm s k x d (by simpa using h)
    simpa using ((List.Perm.swap b (s.getD k d) (s.set k x)).trans (ih.cons b)).trans
      (List.Perm.swap x b s)

/-- Exchanging which of `a`, `x` sits at the front and which at position `m`
is a permutation. -/
theorem cons_set_perm {β : Type} :
    ∀ (t : List β) (m : Nat) (a x : β), m < t.length →
      List.Perm (x :: t.set m a) (a :: t.set m x)
  | b :: s, 0, a, x, _ => List.Perm.swap a x s
  | b :: s, m + 1, a, x, h => by
    have ih := cons_set_perm s m a x (by simpa using h)
    simpa using ((List.Perm.swap b x (s.set m a)).trans (ih.cons b)).trans
      (List.Perm.swap a b (s.set m x))

/-- The fundamental exchange step of the sift loops: copying the element at
`j` over position `i` and then writing `x` at `j` permutes the entries at
`i` and `j` of `l.set i x`. -/
theorem set_pair_perm {β : Type} :
    ∀ (l : List β) (i j : Nat) (x d : β), i < l.length → j < l.length → j ≠ i →
      List.Perm ((l.set i (l.getD j d)).set j x) (l.set i x)
  | [], i, _, _, _, hi, _, _ => absurd hi (by simp)
  | a :: t, 0, 0, x, d, _, _, hij => absurd rfl hij
  | a :: t, 0, k + 1, x, d, _, hj, _ => by
    simpa using cons_getD_set_perm t k x d (by simpa using hj)
  | a :: t, m + 1, 0, x, d, hi, _, _ => by
    have h := cons_set_perm t m a x (by simpa using hi)
    simpa using h
  | a :: t, m + 1, k + 1, x, d, hi, hj, hij => by
    simpa using (set_pair_perm t m k x d (by simpa using hi) (by simpa using hj)
      (by omega)).cons a

/-- `_siftdown` only writes via `set`, so it preserves the heap length. -/
theorem siftdownAux_length {α : Type} (startpos : Nat) (newitem : Node α) :
    ∀ (fuel : Nat) (heap : List (Node α)) (pos : Nat),
      (siftdownAux startpos newitem fuel heap pos).length = heap.length
  | 0, heap, pos => by simp [siftdownAux]
  | fuel + 1, heap, pos => by
    simp only [siftdownAux]
    split
    · split
      · rw [siftdownAux_length startpos newitem fuel]; simp
      · simp
    · simp

/-- `_siftup`'s loop only writes via `set`, so it preserves the heap
length. -/
theorem siftupAux_length {α : Type} (endpos startpos : Nat) (newitem : Node α) :
    ∀ (fuel : Nat) (heap : List (Node α)) (pos : Nat),
      (siftupAux endpos startpos newitem fuel heap pos).length = heap.length
  | 0, heap, pos => by
    simp [siftupAux, siftdown, siftdownAux_length]
  | fuel + 1, heap, pos => by
    simp only [siftupAux]
    split
    · rw [siftupAux_length endpos startpos newitem fuel]; simp
    · simp [siftdown, siftdownAux_length]

/-- `_siftup` preserves the heap length. -/
theorem siftup_length {α : Type} (heap : List (Node α)) (pos : Nat) :
    (siftup heap pos).length = heap.length := by
  simp [siftup, siftupAux_length]

/-- `_siftdown` with the item at `pos` produces a permutation of the heap
with `newitem` written at `pos`, provided `pos` is in bounds. -/
theorem siftdownAux_perm {α : Type} (startpos : Nat) (newitem : Node α) :
    ∀ (fuel : Nat) (heap : List (Node α)) (pos : Nat), pos < heap.length →
      List.Perm (siftdownAux startpos newitem fuel heap pos) (heap.set pos newitem)
  | 0, heap, pos, _ => by simp [siftdownAux]
  | fuel + 1, heap, pos, hpos => by
    simp only [siftdownAux]
    split
    · split
      · rename_i h1 h2
        have hpp : (pos - 1) / 2 < pos := by omega
        have ih := siftdownAux_perm startpos newitem fuel
          (heap.set pos (heap.getD ((pos - 1) / 2) .null)) ((pos - 1) / 2)
          (by simp; omega)
        exact ih.trans (set_pair_perm heap pos ((pos - 1) / 2) newitem .null hpos
          (by omega) (by omega))
      · exact List.Perm.refl _
    · exact List.Perm.refl _

/-- `_siftdown` as called (fuel `pos`) permutes `heap.set pos newitem`. -/
theorem siftdown_perm {α : Type} (heap : List (Node α)) (startpos pos : Nat)
    (newitem : Node α) (hpos : pos < heap.length) :
    List.Perm (siftdown heap startpos pos newitem) (heap.set pos newitem) :=
  siftdownAux_perm startpos newitem pos heap pos hpos

/-- The `_siftup` loop produces a permutation of the heap with `newitem`
written at `pos`, provided `pos` is in bounds and `endpos` does not exceed
the length. -/
theorem siftupAux_perm {α : Type} (endpos startpos : Nat) (newitem : Node α) :
    ∀ (fuel : Nat) (heap : List (Node α)) (pos : Nat), pos < heap.length →
      endpos ≤ heap.length →
      List.Perm (siftupAux endpos startpos newitem fuel heap pos) (heap.set pos newitem)
  | 0, heap, pos, hpos, _ => by
    simp only [siftupAux]
    exact (siftdown_perm _ startpos pos newitem (by simpa using hpos)).trans
      (by rw [List.set_set])
  | fuel + 1, heap, pos, hpos, hend => by
    simp only [siftupAux]
    split
    · rename_i hguard
      set childpos := if 2 * pos + 1 + 1 < endpos ∧
          ¬ (heap.getD (2 * pos + 1) .null).freq < (heap.getD (2 * pos + 1 + 1) .null).freq
        then 2 * pos + 1 + 1 else 2 * pos + 1 with hcp
      have hchild : childpos < heap.length := by
        rw [hcp]; split <;> omega
      have hne : childpos ≠ pos := by
        rw [hcp]; split <;> omega
      have ih := siftupAux_perm endpos startpos newitem fuel
        (heap.set pos (heap.getD childpos .null)) childpos
        (by simpa using hchild) (by simpa using hend)
      exact ih.trans (set_pair_perm heap pos childpos newitem .null hpos hchild hne)
    · exact (siftdown_perm _ startpos pos newitem (by simpa using hpos)).trans
        (by rw [List.set_set])

/-- `_siftup` permutes the heap (it ends by writing back the item it took
out). -/
theorem siftup_perm {α : Type} (heap : List (Node α)) (pos : Nat)
    (hpos : pos < heap.length) :
    List.Perm (siftup heap pos) heap := by
  have h := siftupAux_perm heap.length pos (heap.getD pos .null) heap.length heap pos hpos
    (Nat.le_refl _)
  rw [set_getD_self] at h
  exact h

/-- Writing at the appended position replaces the appended element. -/
theorem set_length_append {β : Type} : ∀ (l : List β) (x y : β),
    (l ++ [x]).set l.length y = l ++ [y]
  | [], _, _ => rfl
  | a :: t, x, y => by simp [set_length_append t x y]

/-- `heappop` on a nonempty heap returns an element and a heap that together
permute the input. -/
theorem heappop_spec {α : Type} :
    ∀ (heap : List (Node α)), heap ≠ [] →
      ∃ p h', heappop heap = (some p, h') ∧ List.Perm (p :: h') heap := by
  intro heap hne
  match heap with
  | [x] => exact ⟨x, [], rfl, List.Perm.refl _⟩
  | x :: y :: ys =>
    refine ⟨x, _, rfl, ?_⟩
    have hgl : (x :: y :: ys).getLast (List.cons_ne_nil _ _) =
        (y :: ys).getLast (List.cons_ne_nil _ _) := List.getLast_cons _
    have hs : List.Perm
        (siftup (((x :: y :: ys).getLast (List.cons_ne_nil _ _)) :: (y :: ys).dropLast) 0)
        (((x :: y :: ys).getLast (List.cons_ne_nil _ _)) :: (y :: ys).dropLast) :=
      siftup_perm _ 0 (by simp)
    refine (hs.cons x).trans ?_
    rw [hgl]
    refine List.Perm.cons x ?_
    refine ((List.perm_append_singleton _ _).symm).trans ?_
    rw [List.dropLast_append_getLast]

/-- `heappush` produces a permutation of consing the pushed item. -/
theorem heappush_perm {α : Type} (heap : List (Node α)) (item : Node α) :
    List.Perm (heappush heap item) (item :: heap) := by
  have h := siftdown_perm (heap ++ [item]) 0 heap.length item (by simp)
  rw [set_length_append] at h
  exact h.trans (List.perm_append_singleton _ _)

/-- `heappush` grows the heap by one element. -/
theorem heappush_length {α : Type} (heap : List (Node α)) (item : Node α) :
    (heappush heap item).length = heap.length + 1 := by
  simp [heappush, siftdown, siftdownAux_length]

/-- The `heapify` loop permutes the heap as long as all sift positions are in
bounds. -/
theorem heapifyLoop_perm {α : Type} :
    ∀ (i : Nat) (h : List (Node α)), i ≤ h.length → List.Perm (heapifyLoop h i) h
  | 0, h, _ => List.Perm.refl _
  | i + 1, h, hle => by
    have h₁ : List.Perm (siftup h i) h := siftup_perm h i (by omega)
    have h₂ := heapifyLoop_perm i (siftup h i) (by rw [siftup_length]; omega)
    exact (h₂.trans h₁)

/-- `heapify` permutes the heap. -/
theorem heapify_perm {α : Type} (heap : List (Node α)) :
    List.Perm (heapify heap) heap :=
  heapifyLoop_perm _ heap (by omega)

/-- Each iteration of the build loop preserves the multiset of code-bearing
leaves spread across the heap: popping two trees and pushing their merge
keeps every `(symbol, weight)` leaf pair. -/
theorem buildLoop_leaves_perm {α : Type} :
    ∀ (fuel : Nat) (heap : List (Node α)),
      List.Perm ((buildLoop fuel heap).flatMap nodeLeaves) (heap.flatMap nodeLeaves)
  | 0, heap => List.Perm.refl _
  | fuel + 1, heap => by
    by_cases hlen : heap.length > 1
    · have hne : heap ≠ [] := by intro h; rw [h] at hlen; simp at hlen
      obtain ⟨p₁, h₁, heq₁, hperm₁⟩ := heappop_spec heap hne
      have hlen₁ : h₁.length + 1 = heap.length := by
        have := hperm₁.length_eq; simpa using this
      have hne₁ : h₁ ≠ [] := by
        intro h; rw [h] at hlen₁; simp at hlen₁; omega
      obtain ⟨p₂, h₂, heq₂, hperm₂⟩ := heappop_spec h₁ hne₁
      simp only [buildLoop]
      rw [if_pos hlen]
      simp only [heq₁, heq₂]
      refine (buildLoop_leaves_perm fuel _).trans ?_
      have hpush := (heappush_perm h₂
        (Node.mk none (p₁.freq + p₂.freq) p₁ p₂)).flatMap_right nodeLeaves
      refine hpush.trans ?_
      have step1 :
          ((Node.mk none (p₁.freq + p₂.freq) p₁ p₂) :: h₂).flatMap nodeLeaves =
            nodeLeaves p₁ ++ ((p₂ :: h₂).flatMap nodeLeaves) := by
        simp [nodeLeaves]
      rw [step1]
      refine (List.Perm.append_left _ (hperm₂.flatMap_right nodeLeaves)).trans ?_
      have step2 : nodeLeaves p₁ ++ (h₁.flatMap nodeLeaves) =
          (p₁ :: h₁).flatMap nodeLeaves := by simp
      rw [step2]
      exact hperm₁.flatMap_right nodeLeaves
    · simp only [buildLoop]
      rw [if_neg hlen]

/-- With enough fuel, the build loop reduces a nonempty heap to exactly one
tree. -/
theorem buildLoop_length_one {α : Type} :
    ∀ (fuel : Nat) (heap : List (Node α)), heap ≠ [] → heap.length ≤ fuel + 1 →
      (buildLoop fuel heap).length = 1
  | 0, heap, hne, hle => by
    simp only [buildLoop]
    have : heap.length ≠ 0 := fun h => hne (List.length_eq_zero.mp h)
    omega
  | fuel + 1, heap, hne, hle => by
    by_cases hlen : heap.length > 1
    · obtain ⟨p₁, h₁, heq₁, hperm₁⟩ := heappop_spec heap hne
      have hlen₁ : h₁.length + 1 = heap.length := by
        have := hperm₁.length_eq; simpa using this
      have hne₁ : h₁ ≠ [] := by
        intro h; rw [h] at hlen₁; simp at hlen₁; omega
      obtain ⟨p₂, h₂, heq₂, hperm₂⟩ := heappop_spec h₁ hne₁
      have hlen₂ : h₂.length + 1 = h₁.length := by
        have := hperm₂.length_eq; simpa using this
      simp only [buildLoop]
      rw [if_pos hlen]
      simp only [heq₁, heq₂]
      refine buildLoop_length_one fuel _ ?_ ?_
      · intro h
        have := heappush_length h₂ (Node.mk none (p₁.freq + p₂.freq) p₁ p₂)
        rw [h] at this; simp at this
      · rw [heappush_length]; omega
    · simp only [buildLoop]
      rw [if_neg hlen]
      have : heap.length ≠ 0 := fun h => hne (List.length_eq_zero.mp h)
      omega

/-- Wrapping every table entry as a leaf node and collecting the leaves back
is the identity. -/
theorem flatMap_nodeLeaves_map_leaf {α : Type} : ∀ (ft : List (α × Nat)),
    (ft.map fun p => Node.mk (some p.1) p.2 (.null) (.null)).flatMap nodeLeaves = ft
  | [] => rfl
  | p :: ps => by simp [nodeLeaves, flatMap_nodeLeaves_map_leaf ps]

/-- `build_huffman_tree` on a nonempty table succeeds, and the resulting
tree's leaves are exactly the table entries, as a multiset. -/
theorem build_huffman_tree_spec {α : Type} (ft : List (α × Nat)) (hne : ft ≠ []) :
    ∃ t, build_huffman_tree ft = some t ∧ List.Perm (nodeLeaves t) ft := by
  have hinit : (ft.map fun p => Node.mk (some p.1) p.2 .null .null) ≠ [] := by
    simpa using hne
  have hperm := heapify_perm (ft.map fun p => Node.mk (some p.1) p.2 .null .null)
  have hne2 : heapify (ft.map fun p => Node.mk (some p.1) p.2 .null .null) ≠ [] := by
    intro h
    exact hinit (hperm.symm.trans (h ▸ List.Perm.refl _)).eq_nil
  have hone := buildLoop_length_one
    (heapify (ft.map fun p => Node.mk (some p.1) p.2 .null .null)).length
    (heapify (ft.map fun p => Node.mk (some p.1) p.2 .null .null)) hne2 (by omega)
  obtain ⟨t, ht⟩ : ∃ t, buildLoop
      (heapify (ft.map fun p => Node.mk (some p.1) p.2 .null .null)).length
      (heapify (ft.map fun p => Node.mk (some p.1) p.2 .null .null)) = [t] := by
    match hmatch : buildLoop
        (heapify (ft.map fun p => Node.mk (some p.1) p.2 .null .null)).length
        (heapify (ft.map fun p => Node.mk (some p.1) p.2 .null .null)) with
    | [t] => exact ⟨t, hmatch⟩
    | [] => rw [hmatch] at hone; simp at hone
    | _ :: _ :: _ => rw [hmatch] at hone; simp at hone
  refine ⟨t, ?_, ?_⟩
  · simp only [build_huffman_tree]
    rw [ht]
    rfl
  · have hleaves := buildLoop_leaves_perm
      (heapify (ft.map fun p => Node.mk (some p.1) p.2 .null .null)).length
      (heapify (ft.map fun p => Node.mk (some p.1) p.2 .null .null))
    rw [ht] at hleaves
    have h1 : List.Perm (nodeLeaves t)
        ((heapify (ft.map fun p => Node.mk (some p.1) p.2 .null .null)).flatMap nodeLeaves) := by
      simpa using hleaves
    refine h1.trans ?_
    refine (hperm.flatMap_right nodeLeaves).trans ?_
    rw [flatMap_nodeLeaves_map_leaf]

/-- C5 (amended): for frequency tables that are equal as mappings (one a
permutation of the other), `build_huffman_tree` succeeds on both and the two
trees carry exactly the same `(symbol, weight)` leaf pairs as a multiset —
but, per the counterexample, not necessarily at the same depths. -/
theorem c5_build_tree_leaves_perm_invariant {α : Type} (l₁ l₂ : List (α × Nat))
    (hperm : List.Perm l₁ l₂) (hne : l₁ ≠ []) :
    ∃ t₁ t₂, build_huffman_tree l₁ = some t₁ ∧ build_huffman_tree l₂ = some t₂ ∧
      List.Perm (nodeLeaves t₁) (nodeLeaves t₂) := by
  have hne₂ : l₂ ≠ [] := by
    intro h; exact hne (by rw [h] at hperm; exact hperm.eq_nil)
  obtain ⟨t₁, e₁, p₁⟩ := build_huffman_tree_spec l₁ hne
  obtain ⟨t₂, e₂, p₂⟩ := build_huffman_tree_spec l₂ hne₂
  exact ⟨t₁, t₂, e₁, e₂, p₁.trans (hperm.trans p₂.symm)⟩

/-- Witness for C5 (amended) at the two concrete tables of the
counterexample. -/
theorem c5_build_tree_leaves_perm_invariant_witness :
    ∃ t₁ t₂, build_huffman_tree [('a', 2), ('b', 2), ('c', 2)] = some t₁ ∧
      build_huffman_tree [('c', 2), ('b', 2), ('a', 2)] = some t₂ ∧
      List.Perm (nodeLeaves t₁) (nodeLeaves t₂) :=
  c5_build_tree_leaves_perm_invariant _ _ (by decide) (by decide)

/-- `isAnc` at the same position. -/
theorem isAnc_self (s : Nat) : isAnc s s := by
  rw [isAnc]; simp

/-- Subtree positions lie at or below the root of the subtree. -/
theorem isAnc_ge {s pos : Nat} (h : isAnc s pos) : s ≤ pos := by
  by_cases hle : pos ≤ s
  · rw [isAnc, dif_pos hle] at h; omega
  · omega

/-- Parent step inside a subtree. -/
theorem isAnc_parent {s pos : Nat} (h : isAnc s pos) (hgt : s < pos) :
    isAnc s ((pos - 1) / 2) := by
  rw [isAnc, dif_neg (by omega)] at h; exact h

/-- Left child step inside a subtree. -/
theorem isAnc_left {s pos : Nat} (h : isAnc s pos) : isAnc s (2 * pos + 1) := by
  have hge := isAnc_ge h
  rw [isAnc, dif_neg (by omega)]
  have he : (2 * pos + 1 - 1) / 2 = pos := by omega
  rw [he]; exact h

/-- Right child step inside a subtree. -/
theorem isAnc_right {s pos : Nat} (h : isAnc s pos) : isAnc s (2 * pos + 2) := by
  have hge := isAnc_ge h
  rw [isAnc, dif_neg (by omega)]
  have he : (2 * pos + 2 - 1) / 2 = pos := by omega
  rw [he]; exact h

/-- Every position is in the subtree rooted at 0. -/
theorem isAnc_zero : ∀ pos : Nat, isAnc 0 pos := by
  intro pos
  induction pos using Nat.strong_induction_on with
  | _ pos ih =>
    rw [isAnc]
    split
    · omega
    · exact ih _ (by omega)

/-- In a heap-ordered list the root is a minimum. -/
theorem heapOrd_root_le {α : Type} {h : List (Node α)} (hh : HeapOrd h) :
    ∀ j, j < h.length → (h.getD 0 Node.null).freq ≤ (h.getD j Node.null).freq := by
  intro j
  induction j using Nat.strong_induction_on with
  | _ j ih =>
    intro hj
    rcases Nat.eq_zero_or_pos j with rfl | hpos
    · exact le_refl _
    · exact le_trans (ih ((j - 1) / 2) (by omega) (by omega)) (hh j hpos hj)

/-- `getD` after `set` at a different index. -/
theorem getD_set_ne {β : Type} (l : List β) (i j : Nat) (x d : β) (hij : i ≠ j) :
    (l.set i x).getD j d = l.getD j d := by
  simp [List.getD_eq_getElem?_getD, List.getElem?_set_ne hij]

/-- `getD` after `set` at the same (in-bounds) index. -/
theorem getD_set_self {β : Type} (l : List β) (i : Nat) (x d : β) (hi : i < l.length) :
    (l.set i x).getD i d = x := by
  simp [List.getD_eq_getElem?_getD, List.getElem?_set_self, hi]

/-- `getD` after one `set`, in conditional form. -/
theorem getD_set1 {β : Type} (l : List β) (i k : Nat) (x d : β) (hi : i < l.length) :
    (l.set i x).getD k d = if k = i then x else l.getD k d := by
  by_cases hki : k = i
  · subst hki; rw [getD_set_self _ _ _ _ hi, if_pos rfl]
  · rw [getD_set_ne _ _ _ _ _ (Ne.symm hki), if_neg hki]

/-- `getD` after two `set`s at distinct positions, in conditional form. -/
theorem getD_set2 {β : Type} (l : List β) (i j k : Nat) (x y d : β)
    (hi : i < l.length) (hj : j < l.length) :
    ((l.set i x).set j y).getD k d =
      if k = j then y else if k = i then x else l.getD k d := by
  by_cases hkj : k = j
  · subst hkj; rw [getD_set_self _ _ _ _ (by simpa using hj), if_pos rfl]
  · rw [getD_set_ne _ _ _ _ _ (Ne.symm hkj), if_neg hkj, getD_set1 _ _ _ _ _ hi]

/-- Heap-order restoration by the `_siftdown` loop.  Writing `A` for
`h.set pos newitem` (the array with the sifted item placed at the hole):
if every parent-child pair inside the subtree of `s` not involving `pos` is
ordered (`S1`), and the children of the hole are at least the hole's parent
(`S2`), then after the loop every pair whose parent lies in the subtree of
`s` is ordered. -/
theorem siftdownAux_heapOrd {α : Type} (s : Nat) (newitem : Node α) :
    ∀ (fuel : Nat) (h : List (Node α)) (pos : Nat),
      pos ≤ fuel → pos < h.length → isAnc s pos →
      (∀ j, 0 < j → j < h.length → s ≤ (j - 1) / 2 → j ≠ pos →
        ((h.set pos newitem).getD ((j - 1) / 2) Node.null).freq ≤
          ((h.set pos newitem).getD j Node.null).freq) →
      (s < pos → ∀ j, 0 < j → j < h.length → (j - 1) / 2 = pos →
        ((h.set pos newitem).getD ((pos - 1) / 2) Node.null).freq ≤
          ((h.set pos newitem).getD j Node.null).freq) →
      ∀ j, 0 < j → j < h.length → s ≤ (j - 1) / 2 →
        ((siftdownAux s newitem fuel h pos).getD ((j - 1) / 2) Node.null).freq ≤
          ((siftdownAux s newitem fuel h pos).getD j Node.null).freq
  | 0, h, pos => by
    intro hfuel hpos hanc hS1 hS2 j hj0 hjlen hsj
    have hpos0 : pos = 0 := by omega
    subst hpos0
    simp only [siftdownAux]
    exact hS1 j hj0 hjlen hsj (by omega)
  | fuel + 1, h, pos => by
    intro hfuel hpos hanc hS1 hS2 j hj0 hjlen hsj
    simp only [siftdownAux]
    split_ifs with hgt hlt
    · -- moving the parent down into the hole and recursing at the parent
      have hpos1 : 1 ≤ pos := by omega
      have hppos : (pos - 1) / 2 < pos := by omega
      have hppne : (pos - 1) / 2 ≠ pos := by omega
      have hpplen : (pos - 1) / 2 < h.length := by omega
      have hancp : isAnc s ((pos - 1) / 2) := isAnc_parent hanc hgt
      -- rewrite the S1/S2 hypotheses into conditional form once and for all
      have hS1' : ∀ j₂, 0 < j₂ → j₂ < h.length → s ≤ (j₂ - 1) / 2 → j₂ ≠ pos →
          (if (j₂ - 1) / 2 = pos then newitem else h.getD ((j₂ - 1) / 2) Node.null).freq ≤
            (h.getD j₂ Node.null).freq := by
        intro j₂ a b c d
        have := hS1 j₂ a b c d
        rw [getD_set1 _ _ _ _ _ hpos, getD_set1 _ _ _ _ _ hpos, if_neg d] at this
        exact this
      have hS2' : ∀ j₂, 0 < j₂ → j₂ < h.length → (j₂ - 1) / 2 = pos →
          (h.getD ((pos - 1) / 2) Node.null).freq ≤ (h.getD j₂ Node.null).freq := by
        intro j₂ a b c
        have := hS2 hgt j₂ a b c
        rw [getD_set1 _ _ _ _ _ hpos, getD_set1 _ _ _ _ _ hpos,
          if_neg hppne, if_neg (by omega : j₂ ≠ pos)] at this
        exact this
      refine siftdownAux_heapOrd s newitem fuel
        (h.set pos (h.getD ((pos - 1) / 2) Node.null)) ((pos - 1) / 2)
        (by omega) (by simp; omega) hancp ?_ ?_ j hj0 (by simpa using hjlen) hsj
      · -- S1 for the new hole at the parent position
        intro j₂ hj₂0 hj₂len hsj₂ hj₂ne
        rw [List.length_set] at hj₂len
        rw [getD_set2 _ _ _ _ _ _ _ hpos hpplen, getD_set2 _ _ _ _ _ _ _ hpos hpplen,
          if_neg hj₂ne]
        by_cases hj₂pos : j₂ = pos
        · -- the pair (pos, parentpos): newitem sits at parentpos, parent at pos
          rw [if_pos hj₂pos, if_pos (by rw [hj₂pos])]
          exact le_of_lt hlt
        · rw [if_neg hj₂pos]
          by_cases hpj₂pp : (j₂ - 1) / 2 = (pos - 1) / 2
          · rw [if_pos hpj₂pp]
            -- a child of the new hole other than `pos`: chain via the old parent
            have h1 := hS1' j₂ hj₂0 hj₂len hsj₂ hj₂pos
            rw [if_neg (by omega : ¬ (j₂ - 1) / 2 = pos)] at h1
            rw [hpj₂pp] at h1
            exact le_trans (le_of_lt hlt) h1
          · rw [if_neg hpj₂pp]
            by_cases hpj₂pos : (j₂ - 1) / 2 = pos
            · -- a child of the old hole: its parent slot now holds the old parent
              rw [if_pos hpj₂pos]
              exact hS2' j₂ hj₂0 hj₂len hpj₂pos
            · -- a pair not involving the hole positions at all
              rw [if_neg hpj₂pos]
              have h1 := hS1' j₂ hj₂0 hj₂len hsj₂ hj₂pos
              rw [if_neg hpj₂pos] at h1
              exact h1
      · -- S2 for the new hole at the parent position
        intro hspp j₂ hj₂0 hj₂len hpj₂
        rw [List.length_set] at hj₂len
        have hpp1 : 1 ≤ (pos - 1) / 2 := by omega
        have hancpp : isAnc s (((pos - 1) / 2 - 1) / 2) := isAnc_parent hancp hspp
        have hpppltpp : ((pos - 1) / 2 - 1) / 2 < (pos - 1) / 2 := by omega
        -- grandparent ≤ parent, from S1 at the parent position
        have hgp := hS1' ((pos - 1) / 2) (by omega) (by omega) (isAnc_ge hancpp) hppne
        rw [if_neg (by omega : ¬ ((pos - 1) / 2 - 1) / 2 = pos)] at hgp
        rw [getD_set2 _ _ _ _ _ _ _ hpos hpplen, getD_set2 _ _ _ _ _ _ _ hpos hpplen,
          if_neg (by omega : ¬ ((pos - 1) / 2 - 1) / 2 = (pos - 1) / 2),
          if_neg (by omega : ¬ ((pos - 1) / 2 - 1) / 2 = pos),
          if_neg (by omega : ¬ j₂ = (pos - 1) / 2)]
        by_cases hj₂pos : j₂ = pos
        · -- the child that is the old hole now holds the old parent value
          rw [if_pos hj₂pos]
          exact hgp
        · -- the other child of the parent position: chain through the parent
          rw [if_neg hj₂pos]
          have h1 := hS1' j₂ hj₂0 hj₂len (by omega) hj₂pos
          rw [if_neg (by omega : ¬ (j₂ - 1) / 2 = pos), hpj₂] at h1
          exact le_trans hgp h1
    · -- loop exit: the parent is already at most `newitem`
      rw [getD_set1 _ _ _ _ _ hpos, getD_set1 _ _ _ _ _ hpos]
      by_cases hjpos : j = pos
      · rw [if_pos hjpos, if_neg (by omega : ¬ (j - 1) / 2 = pos)]
        have : (j - 1) / 2 = (pos - 1) / 2 := by rw [hjpos]
        rw [this]
        omega
      · rw [if_neg hjpos]
        have h1 := hS1 j hj0 hjlen hsj hjpos
        rw [getD_set1 _ _ _ _ _ hpos, getD_set1 _ _ _ _ _ hpos, if_neg hjpos] at h1
        exact h1
    · -- `pos ≤ startpos`: by `isAnc`, `pos = startpos`; the pair at `pos`
      -- would need a parent inside the subtree, which is impossible
      have hpeq : pos = s := by have := isAnc_ge hanc; omega
      rw [getD_set1 _ _ _ _ _ hpos, getD_set1 _ _ _ _ _ hpos]
      by_cases hjpos : j = pos
      · exfalso; omega
      · rw [if_neg hjpos]
        have h1 := hS1 j hj0 hjlen hsj hjpos
        rw [getD_set1 _ _ _ _ _ hpos, getD_set1 _ _ _ _ _ hpos, if_neg hjpos] at h1
        exact h1

/-- Heap-order restoration by the `_siftup` loop (hole-descent phase
followed by `_siftdown`).  If every parent-child pair inside the subtree of
`s` not involving the hole `pos` is ordered (`D1`), and the children of the
hole are at least the hole's parent (`D2`), then after the sift every pair
whose parent lies in the subtree of `s` is ordered. -/
theorem siftupAux_heapOrd {α : Type} (endpos s : Nat) (newitem : Node α) :
    ∀ (fuel : Nat) (h : List (Node α)) (pos : Nat),
      endpos = h.length → endpos ≤ pos + fuel → pos < h.length → isAnc s pos →
      (∀ j, 0 < j → j < h.length → s ≤ (j - 1) / 2 → j ≠ pos → (j - 1) / 2 ≠ pos →
        (h.getD ((j - 1) / 2) Node.null).freq ≤ (h.getD j Node.null).freq) →
      (s < pos → ∀ j, 0 < j → j < h.length → (j - 1) / 2 = pos →
        (h.getD ((pos - 1) / 2) Node.null).freq ≤ (h.getD j Node.null).freq) →
      ∀ j, 0 < j → j < h.length → s ≤ (j - 1) / 2 →
        ((siftupAux endpos s newitem fuel h pos).getD ((j - 1) / 2) Node.null).freq ≤
          ((siftupAux endpos s newitem fuel h pos).getD j Node.null).freq
  | 0, h, pos => by
    intro hend hfuel hpos hanc hD1 hD2 j hj0 hjlen hsj
    -- no fuel left means `endpos ≤ pos`, so the hole has no children and
    -- the final `_siftdown` applies directly
    simp only [siftupAux, siftdown]
    refine siftdownAux_heapOrd s newitem pos (h.set pos newitem) pos (le_refl pos)
      (by simpa using hpos) hanc ?_ ?_ j hj0 (by simpa using hjlen) hsj
    · intro j₂ hj₂0 hj₂len hsj₂ hj₂ne
      rw [List.length_set] at hj₂len
      rw [List.set_set, getD_set1 _ _ _ _ _ hpos, getD_set1 _ _ _ _ _ hpos,
        if_neg hj₂ne]
      by_cases hpj₂ : (j₂ - 1) / 2 = pos
      · exfalso; omega
      · rw [if_neg hpj₂]
        exact hD1 j₂ hj₂0 hj₂len hsj₂ hj₂ne hpj₂
    · intro hspos j₂ hj₂0 hj₂len hpj₂
      rw [List.length_set] at hj₂len
      exfalso; omega
  | fuel + 1, h, pos => by
    intro hend hfuel hpos hanc hD1 hD2 j hj0 hjlen hsj
    simp only [siftupAux]
    have hnn : 2 * pos + 1 + 1 = 2 * pos + 2 := rfl
    rw [hnn]
    split_ifs with hguard hpick
    · -- descend to the right child (it is the not-larger one)
      refine siftupAux_heapOrd endpos s newitem fuel
        (h.set pos (h.getD (2 * pos + 2) Node.null)) (2 * pos + 2)
        (by simpa using hend) (by omega) (by rw [List.length_set]; omega)
        ?_ ?_ ?_ j hj0 (by simpa using hjlen) hsj
      · rw [isAnc, dif_neg (by have := isAnc_ge hanc; omega)]
        have he : (2 * pos + 2 - 1) / 2 = pos := by omega
        rw [he]; exact hanc
      · intro j₂ hj₂0 hj₂len hsj₂ hj₂ne hpj₂ne
        rw [List.length_set] at hj₂len
        rw [getD_set1 _ _ _ _ _ hpos, getD_set1 _ _ _ _ _ hpos]
        by_cases hj₂pos : j₂ = pos
        · rw [if_pos hj₂pos]
          rcases Nat.lt_or_ge s pos with hspos | hspos
          · rw [if_neg (by omega : ¬ (j₂ - 1) / 2 = pos)]
            have h2 := hD2 hspos (2 * pos + 2) (by omega) (by omega) (by omega)
            rw [hj₂pos]
            exact h2
          · exfalso
            have := isAnc_ge hanc
            omega
        · rw [if_neg hj₂pos]
          by_cases hpj₂pos : (j₂ - 1) / 2 = pos
          · rw [if_pos hpj₂pos]
            -- the other child of the hole is the left child
            have hj₂val : j₂ = 2 * pos + 1 := by omega
            rw [hj₂val]
            omega
          · rw [if_neg hpj₂pos]
            exact hD1 j₂ hj₂0 hj₂len hsj₂ hj₂pos hpj₂pos
      · intro hsc j₂ hj₂0 hj₂len hpj₂
        rw [List.length_set] at hj₂len
        have he : (2 * pos + 2 - 1) / 2 = pos := by omega
        rw [he, getD_set1 _ _ _ _ _ hpos, getD_set1 _ _ _ _ _ hpos, if_pos rfl,
          if_neg (by omega : ¬ j₂ = pos)]
        have h1 := hD1 j₂ hj₂0 hj₂len (by omega) (by omega) (by omega)
        rw [hpj₂] at h1
        exact h1
    · -- descend to the left child
      refine siftupAux_heapOrd endpos s newitem fuel
        (h.set pos (h.getD (2 * pos + 1) Node.null)) (2 * pos + 1)
        (by simpa using hend) (by omega) (by rw [List.length_set]; omega)
        ?_ ?_ ?_ j hj0 (by simpa using hjlen) hsj
      · rw [isAnc, dif_neg (by have := isAnc_ge hanc; omega)]
        have he : (2 * pos + 1 - 1) / 2 = pos := by omega
        rw [he]; exact hanc
      · intro j₂ hj₂0 hj₂len hsj₂ hj₂ne hpj₂ne
        rw [List.length_set] at hj₂len
        rw [getD_set1 _ _ _ _ _ hpos, getD_set1 _ _ _ _ _ hpos]
        by_cases hj₂pos : j₂ = pos
        · rw [if_pos hj₂pos]
          rcases Nat.lt_or_ge s pos with hspos | hspos
          · rw [if_neg (by omega : ¬ (j₂ - 1) / 2 = pos)]
            have h2 := hD2 hspos (2 * pos + 1) (by omega) (by omega) (by omega)
            rw [hj₂pos]
            exact h2
          · exfalso
            have := isAnc_ge hanc
            omega
        · rw [if_neg hj₂pos]
          by_cases hpj₂pos : (j₂ - 1) / 2 = pos
          · rw [if_pos hpj₂pos]
            -- the other child of the hole is the right child (if in range)
            have hj₂val : j₂ = 2 * pos + 2 := by omega
            push_neg at hpick
            rcases Nat.lt_or_ge (2 * pos + 2) endpos with hr | hr
            · have h2 := hpick hr
              rw [hj₂val]
              omega
            · exfalso; omega
          · rw [if_neg hpj₂pos]
            exact hD1 j₂ hj₂0 hj₂len hsj₂ hj₂pos hpj₂pos
      · intro hsc j₂ hj₂0 hj₂len hpj₂
        rw [List.length_set] at hj₂len
        have he : (2 * pos + 1 - 1) / 2 = pos := by omega
        rw [he, getD_set1 _ _ _ _ _ hpos, getD_set1 _ _ _ _ _ hpos, if_pos rfl,
          if_neg (by omega : ¬ j₂ = pos)]
        have h1 := hD1 j₂ hj₂0 hj₂len (by omega) (by omega) (by omega)
        rw [hpj₂] at h1
        exact h1
    · -- the hole has no children: hand over to `_siftdown` as in the base case
      simp only [siftdown]
      refine siftdownAux_heapOrd s newitem pos (h.set pos newitem) pos (le_refl pos)
        (by simpa using hpos) hanc ?_ ?_ j hj0 (by simpa using hjlen) hsj
      · intro j₂ hj₂0 hj₂len hsj₂ hj₂ne
        rw [List.length_set] at hj₂len
        rw [List.set_set, getD_set1 _ _ _ _ _ hpos, getD_set1 _ _ _ _ _ hpos,
          if_neg hj₂ne]
        by_cases hpj₂ : (j₂ - 1) / 2 = pos
        · exfalso; omega
        · rw [if_neg hpj₂]
          exact hD1 j₂ hj₂0 hj₂len hsj₂ hj₂ne hpj₂
      · intro hspos j₂ hj₂0 hj₂len hpj₂
        rw [List.length_set] at hj₂len
        exfalso; omega

/-- `getD` into the left part of an append. -/
theorem getD_append_left {β : Type} (l l' : List β) (k : Nat) (d : β)
    (hk : k < l.length) : (l ++ l').getD k d = l.getD k d := by
  rw [List.getD_eq_getElem?_getD, List.getD_eq_getElem?_getD,
    List.getElem?_append_left hk]

/-- `getD` commutes with `dropLast` inside the shortened range. -/
theorem getD_dropLast {β : Type} (l : List β) (k : Nat) (d : β)
    (hk : k < l.dropLast.length) : l.dropLast.getD k d = l.getD k d := by
  rw [List.getD_eq_getElem (l.dropLast) d hk, List.getElem_dropLast l k hk,
    List.getD_eq_getElem l d (by simp at hk; omega)]

/-- `_siftup` at `pos` orders every pair whose parent is in the subtree of
`pos`, provided the pairs with parent strictly below `pos` were ordered. -/
theorem siftup_heapOrd {α : Type} (h : List (Node α)) (pos : Nat) (hpos : pos < h.length)
    (pre : ∀ j, 0 < j → j < h.length → pos < (j - 1) / 2 →
      (h.getD ((j - 1) / 2) Node.null).freq ≤ (h.getD j Node.null).freq) :
    ∀ j, 0 < j → j < h.length → pos ≤ (j - 1) / 2 →
      ((siftup h pos).getD ((j - 1) / 2) Node.null).freq ≤
        ((siftup h pos).getD j Node.null).freq := by
  intro j hj0 hjlen hsj
  simp only [siftup]
  refine siftupAux_heapOrd h.length pos (h.getD pos Node.null) h.length h pos rfl
    (by omega) hpos (isAnc_self pos) ?_ (fun hlt => absurd hlt (lt_irrefl pos))
    j hj0 hjlen hsj
  intro j₂ h0 hlen hs hne hpne
  exact pre j₂ h0 hlen (by omega)

/-- The `heapify` loop: if all pairs with parent index `≥ i` are ordered,
running the sifts at `i-1, …, 0` yields a fully heap-ordered list. -/
theorem heapifyLoop_heapOrd {α : Type} :
    ∀ (i : Nat) (h : List (Node α)), i ≤ h.length →
      (∀ j, 0 < j → j < h.length → i ≤ (j - 1) / 2 →
        (h.getD ((j - 1) / 2) Node.null).freq ≤ (h.getD j Node.null).freq) →
      HeapOrd (heapifyLoop h i)
  | 0, h, _, pre => by
    intro j hj0 hjlen
    simp only [heapifyLoop] at hjlen ⊢
    exact pre j hj0 hjlen (by omega)
  | i + 1, h, hle, pre => by
    simp only [heapifyLoop]
    refine heapifyLoop_heapOrd i (siftup h i) ?_ ?_
    · rw [siftup_length]; omega
    · intro j hj0 hjlen hsj
      rw [siftup_length] at hjlen
      exact siftup_heapOrd h i (by omega) (fun j₂ a b c => pre j₂ a b (by omega))
        j hj0 hjlen hsj

/-- `heapify` establishes the heap invariant. -/
theorem heapify_heapOrd {α : Type} (h : List (Node α)) : HeapOrd (heapify h) := by
  refine heapifyLoop_heapOrd (h.length / 2) h (by omega) ?_
  intro j hj0 hjlen hsj
  exfalso; omega

/-- `heappush` preserves the heap invariant. -/
theorem heappush_heapOrd {α : Type} (h : List (Node α)) (x : Node α)
    (hh : HeapOrd h) : HeapOrd (heappush h x) := by
  intro j hj0 hjlen
  rw [heappush_length] at hjlen
  simp only [heappush, siftdown]
  refine siftdownAux_heapOrd 0 x h.length (h ++ [x]) h.length (le_refl _)
    (by simp) (isAnc_zero _) ?_ ?_ j hj0 (by simp; omega) (by omega)
  · intro j₂ hj₂0 hj₂len hs hne
    rw [List.length_append] at hj₂len
    simp only [List.length_singleton] at hj₂len
    rw [set_length_append]
    rw [getD_append_left _ _ _ _ (by omega), getD_append_left _ _ _ _ (by omega)]
    exact hh j₂ hj₂0 (by omega)
  · intro hpos j₂ hj₂0 hj₂len hpj
    rw [List.length_append] at hj₂len
    simp only [List.length_singleton] at hj₂len
    exfalso; omega

/-- Full specification of `heappop` on a heap-ordered nonempty list: it
returns a minimum element, and the remaining list is heap-ordered and
permutes with the popped element back to the input. -/
theorem heappop_min_spec {α : Type} (heap : List (Node α)) (hh : HeapOrd heap)
    (hne : heap ≠ []) :
    ∃ p h', heappop heap = (some p, h') ∧ List.Perm (p :: h') heap ∧ HeapOrd h' ∧
      ∀ x ∈ h', p.freq ≤ x.freq := by
  have hmin : ∀ x ∈ heap, (heap.getD 0 Node.null).freq ≤ x.freq := by
    intro x hx
    obtain ⟨i, hi, hix⟩ := List.mem_iff_getElem.mp hx
    have := heapOrd_root_le hh i hi
    rw [List.getD_eq_getElem heap Node.null hi, hix] at this
    exact this
  obtain ⟨p, h', heq, hperm⟩ := heappop_spec heap hne
  refine ⟨p, h', heq, hperm, ?_, ?_⟩
  · -- the rest of the heap stays heap-ordered
    match heap, hne with
    | [x], _ =>
      have : p = x ∧ h' = [] := by
        have h2 : heappop [x] = (some x, []) := rfl
        rw [h2] at heq
        exact ⟨by injection heq.symm with h1 _; injection h1, by injection heq.symm⟩
      rcases this with ⟨_, rfl⟩
      intro j hj0 hjlen
      simp at hjlen
    | x :: y :: ys, _ =>
      have hform : heappop (x :: y :: ys) =
          (some x, siftup ((x :: (y :: ys).dropLast).set 0
            ((x :: y :: ys).getLast (List.cons_ne_nil _ _))) 0) := rfl
      rw [hform] at heq
      have hh' : h' = siftup ((x :: (y :: ys).dropLast).set 0
          ((x :: y :: ys).getLast (List.cons_ne_nil _ _))) 0 := by
        injection heq.symm
      rw [hh']
      -- the positions ≥ 1 of the pre-sift list coincide with the original heap
      have hB : ∀ k, 0 < k →
          k < ((x :: (y :: ys).dropLast).set 0
            ((x :: y :: ys).getLast (List.cons_ne_nil _ _))).length →
          ((x :: (y :: ys).dropLast).set 0
            ((x :: y :: ys).getLast (List.cons_ne_nil _ _))).getD k Node.null =
            (x :: y :: ys).getD k Node.null := by
        intro k hk0 hklen
        rw [List.length_set] at hklen
        rw [getD_set_ne _ _ _ _ _ (by omega)]
        match k, hk0 with
        | k + 1, _ =>
          have hklen2 : k < (y :: ys).dropLast.length := by
            simp only [List.length_cons] at hklen
            simp
            simp at hklen
            omega
          rw [List.getD_cons_succ, List.getD_cons_succ]
          exact getD_dropLast (y :: ys) k Node.null hklen2
      intro j hj0 hjlen
      rw [siftup_length] at hjlen
      refine siftup_heapOrd _ 0 (by simp) ?_ j hj0 hjlen (by omega)
      intro j₂ hj₂0 hj₂len hpj₂
      rw [hB j₂ hj₂0 hj₂len, hB ((j₂ - 1) / 2) (by omega) (by rw [List.length_set] at hj₂len ⊢; omega)]
      rw [List.length_set] at hj₂len
      exact hh j₂ hj₂0 (by simp at hj₂len ⊢; omega)
  · -- minimality of the popped element
    intro x hx
    have hx2 : x ∈ heap := hperm.mem_iff.mp (List.mem_cons_of_mem p hx)
    have hp : p ∈ heap := hperm.mem_iff.mp (List.mem_cons_self p h')
    -- the popped element is the root
    have hproot : p.freq ≤ x.freq ∨ p = heap.getD 0 Node.null := by
      match heap, hne with
      | [z], _ =>
        have h2 : heappop [z] = (some z, []) := rfl
        rw [h2] at heq
        right
        have : p = z := by injection heq.symm with h1 _; injection h1
        rw [this]; rfl
      | z :: y :: ys, _ =>
        have hform : heappop (z :: y :: ys) =
            (some z, siftup ((z :: (y :: ys).dropLast).set 0
              ((z :: y :: ys).getLast (List.cons_ne_nil _ _))) 0) := rfl
        rw [hform] at heq
        right
        have : p = z := by injection heq.symm with h1 _; injection h1
        rw [this]; rfl
    rcases hproot with h1 | h1
    · exact h1
    · rw [h1]; exact hmin x hx2

/-- `RunH` only depends on the state up to permutation. -/
theorem runH_perm {α : Type} {M M' : List (HTree α)} {t : HTree α}
    (hMM : List.Perm M M') (hrun : RunH M t) : RunH M' t := by
  induction hrun generalizing M' with
  | single t => rw [List.perm_singleton.mp hMM.symm]; exact RunH.single t
  | step M p q rest t hperm hp hq hrun ih =>
    exact RunH.step M' p q rest t (hMM.symm.trans hperm) hp hq hrun

/-- The build loop, started on a heap-ordered list of convertible trees,
performs an abstract minimum-merge run on their `HTree` images. -/
theorem buildLoop_run {α : Type} :
    ∀ (fuel : Nat) (heap : List (Node α)),
      HeapOrd heap → heap ≠ [] → heap.length ≤ fuel + 1 →
      (∀ x ∈ heap, ∃ th : HTree α, toHTree x = some th ∧ x.freq = th.weight) →
      ∃ t th, buildLoop fuel heap = [t] ∧ toHTree t = some th ∧
        RunH (heap.filterMap toHTree) th
  | 0, heap, hh, hne, hlen, hconv => by
    match heap, hne with
    | [x], _ =>
      obtain ⟨th, hth, _⟩ := hconv x (by simp)
      exact ⟨x, th, rfl, hth, by simp [List.filterMap, hth]; exact RunH.single th⟩
  | fuel + 1, heap, hh, hne, hlen, hconv => by
    by_cases hbig : heap.length > 1
    · obtain ⟨p₁, h₁, heq₁, hperm₁, hord₁, hmin₁⟩ := heappop_min_spec heap hh hne
      have hlen₁ : h₁.length + 1 = heap.length := by
        have := hperm₁.length_eq; simpa using this
      have hne₁ : h₁ ≠ [] := by
        intro hcon; rw [hcon] at hlen₁; simp at hlen₁; omega
      obtain ⟨p₂, h₂, heq₂, hperm₂, hord₂, hmin₂⟩ := heappop_min_spec h₁ hord₁ hne₁
      have hlen₂ : h₂.length + 1 = h₁.length := by
        have := hperm₂.length_eq; simpa using this
      obtain ⟨th₁, hth₁, hw₁⟩ := hconv p₁ (hperm₁.mem_iff.mp (List.mem_cons_self p₁ h₁))
      have hmemh₁ : ∀ x ∈ h₁, x ∈ heap := fun x hx =>
        hperm₁.mem_iff.mp (List.mem_cons_of_mem p₁ hx)
      obtain ⟨th₂, hth₂, hw₂⟩ := hconv p₂
        (hmemh₁ p₂ (hperm₂.mem_iff.mp (List.mem_cons_self p₂ h₂)))
      have hmemh₂ : ∀ x ∈ h₂, x ∈ heap := fun x hx =>
        hmemh₁ x (hperm₂.mem_iff.mp (List.mem_cons_of_mem p₂ hx))
      have hpush := heappush_perm h₂ (Node.mk none (p₁.freq + p₂.freq) p₁ p₂)
      have hconv' : ∀ x ∈ heappush h₂ (Node.mk none (p₁.freq + p₂.freq) p₁ p₂),
          ∃ th : HTree α, toHTree x = some th ∧ x.freq = th.weight := by
        intro x hx
        rcases List.mem_cons.mp (hpush.mem_iff.mp hx) with hx | hx
        · refine ⟨HTree.node th₁ th₂, ?_, ?_⟩
          · rw [hx]; simp [toHTree, hth₁, hth₂]
          · rw [hx]
            show p₁.freq + p₂.freq = (HTree.node th₁ th₂).weight
            rw [hw₁, hw₂]
            rfl
        · exact hconv x (hmemh₂ x hx)
      obtain ⟨t, th, heqloop, hthfin, hrun⟩ := buildLoop_run fuel
        (heappush h₂ (Node.mk none (p₁.freq + p₂.freq) p₁ p₂))
        (heappush_heapOrd h₂ _ hord₂)
        (by intro hcon; have := heappush_length h₂ (Node.mk none (p₁.freq + p₂.freq) p₁ p₂);
            rw [hcon] at this; simp at this)
        (by rw [heappush_length]; omega) hconv'
      refine ⟨t, th, ?_, hthfin, ?_⟩
      · simp only [buildLoop]
        rw [if_pos hbig]
        simp only [heq₁, heq₂]
        exact heqloop
      · -- package the abstract step
        have hfreq_of_mem : ∀ x ∈ h₂.filterMap (toHTree (α := α)),
            ∃ y ∈ h₂, toHTree y = some x ∧ y.freq = x.weight := by
          intro x hx
          obtain ⟨y, hy, hyx⟩ := List.mem_filterMap.mp hx
          obtain ⟨th', hth', hw'⟩ := hconv y (hmemh₂ y hy)
          have : th' = x := by rw [hth'] at hyx; injection hyx
          exact ⟨y, hy, hyx, by rw [← this]; exact hw'⟩
        refine RunH.step _ th₁ th₂ (h₂.filterMap toHTree) th ?_ ?_ ?_ ?_
        · -- the state permutes to minima-first form
          have hc : List.Perm heap (p₁ :: p₂ :: h₂) :=
            (hperm₁.symm).trans ((hperm₂.symm).cons p₁) |>.symm.symm
          have := hc.filterMap (toHTree (α := α))
          simpa [List.filterMap_cons, hth₁, hth₂] using this
        · intro x hx
          rw [← hw₁]
          rcases List.mem_cons.mp hx with hx | hx
          · subst hx
            rw [← hw₂]
            exact hmin₁ p₂ (hperm₂.mem_iff.mp (List.mem_cons_self p₂ h₂))
          · obtain ⟨y, hy, _, hwy⟩ := hfreq_of_mem x hx
            rw [← hwy]
            exact hmin₁ y (hperm₂.mem_iff.mp (List.mem_cons_of_mem p₂ hy))
        · intro x hx
          rw [← hw₂]
          obtain ⟨y, hy, _, hwy⟩ := hfreq_of_mem x hx
          rw [← hwy]
          exact hmin₂ y hy
        · refine runH_perm ?_ hrun
          refine (hpush.filterMap (toHTree (α := α))).trans ?_
          simp [List.filterMap_cons, hth₁, hth₂, toHTree]
    · match heap, hne with
      | [x], _ =>
        obtain ⟨th, hth, _⟩ := hconv x (by simp)
        refine ⟨x, th, ?_, hth, by simp [List.filterMap, hth]; exact RunH.single th⟩
        simp only [buildLoop]
        rw [if_neg hbig]
      | x :: y :: ys, _ => exfalso; simp at hbig

/-- `build_huffman_tree` on a nonempty table returns a node whose `HTree`
image is produced by an abstract minimum-merge run on the leaf trees
`leaf count symbol`, one per table entry. -/
theorem build_huffman_tree_run {α : Type} (ft : List (α × Nat)) (hne : ft ≠ []) :
    ∃ (t : Node α) (th : HTree α),
      build_huffman_tree ft = some t ∧ toHTree t = some th ∧
        RunH (ft.map fun p => HTree.leaf p.2 p.1) th := by
  set heap₀ : List (Node α) := ft.map fun p => Node.mk (some p.1) p.2 Node.null Node.null
    with hheap₀
  have hperm := heapify_perm heap₀
  have hne' : heapify heap₀ ≠ [] := by
    intro hcon
    rw [hcon] at hperm
    exact hne (List.map_eq_nil_iff.mp (hperm.symm.eq_nil))
  have hconv : ∀ x ∈ heapify heap₀,
      ∃ th : HTree α, toHTree x = some th ∧ x.freq = th.weight := by
    intro x hx
    have hx' : x ∈ heap₀ := hperm.mem_iff.mp hx
    obtain ⟨p, _, hp⟩ := List.mem_map.mp hx'
    exact ⟨HTree.leaf p.2 p.1, by rw [← hp]; rfl, by rw [← hp]; rfl⟩
  obtain ⟨t, th, heqloop, hth, hrun⟩ := buildLoop_run (heapify heap₀).length
    (heapify heap₀) (heapify_heapOrd heap₀) hne' (by omega) hconv
  refine ⟨t, th, ?_, hth, ?_⟩
  · rw [build_huffman_tree, ← hheap₀, heqloop]; rfl
  · refine runH_perm ?_ hrun
    refine ((hperm.filterMap (toHTree (α := α))).trans ?_)
    rw [hheap₀, List.filterMap_map]
    have heq : ft.filterMap
        (toHTree ∘ fun p : α × Nat => Node.mk (some p.1) p.2 Node.null Node.null)
          = ft.map fun p : α × Nat => HTree.leaf p.2 p.1 :=
      List.filterMap_eq_map_iff_forall_eq_some.mpr (fun p _ => rfl)
    rw [heq]

/-- Membership in an empty intersection, in the form used throughout. -/
theorem not_mem_of_inter_empty {α : Type} [DecidableEq α] {s t : Finset α}
    (h : s ∩ t = ∅) {x : α} (hx : x ∈ s) : x ∉ t := fun hx2 =>
  Finset.eq_empty_iff_forall_not_mem.mp h x (Finset.mem_inter.mpr ⟨hx, hx2⟩)

/-- A symbol absent from a tree has frequency 0. -/
theorem freqS_eq_zero_of_not_mem {α : Type} [DecidableEq α] (t : HTree α) (a : α)
    (h : a ∉ t.syms) : t.freqS a = 0 := by
  induction t with
  | leaf w c =>
    simp only [HTree.syms, Finset.mem_singleton] at h
    simp [HTree.freqS, h]
  | node t1 t2 ih1 ih2 =>
    simp only [HTree.syms, Finset.mem_union, not_or] at h
    simp [HTree.freqS, ih1 h.1, ih2 h.2]

/-- No leaf is deeper than the height. -/
theorem depthS_le_height {α : Type} [DecidableEq α] (t : HTree α) (x : α) :
    t.depthS x ≤ t.height := by
  induction t with
  | leaf w c => simp [HTree.depthS, HTree.height]
  | node t1 t2 ih1 ih2 =>
    simp only [HTree.depthS, HTree.height]
    split_ifs <;> omega

/-- Height-0 trees are exactly the leaves. -/
theorem height_eq_zero_iff {α : Type} (t : HTree α) :
    t.height = 0 ↔ ∃ w a, t = HTree.leaf w a := by
  cases t with
  | leaf w a => exact ⟨fun _ => ⟨w, a, rfl⟩, fun _ => rfl⟩
  | node t1 t2 => simp [HTree.height]

/-- In a consistent tree every symbol labels at most one leaf. -/
theorem cnt_of_consistent {α : Type} [DecidableEq α] (t : HTree α) (hc : t.consistent)
    (a : α) : t.cnt a = if a ∈ t.syms then 1 else 0 := by
  induction t with
  | leaf w c =>
    by_cases h : a = c
    · subst h; simp [HTree.cnt, HTree.syms]
    · have h' : ¬c = a := fun hh => h hh.symm
      simp [HTree.cnt, HTree.syms, h, h']
  | node t1 t2 ih1 ih2 =>
    obtain ⟨hd, hc1, hc2⟩ := hc
    have e1 := ih1 hc1
    have e2 := ih2 hc2
    show t1.cnt a + t2.cnt a = if a ∈ t1.syms ∪ t2.syms then 1 else 0
    by_cases h1 : a ∈ t1.syms
    · have h2 : a ∉ t2.syms := not_mem_of_inter_empty hd h1
      rw [e1, e2, if_pos h1, if_neg h2, if_pos (Finset.mem_union_left _ h1)]
    · by_cases h2 : a ∈ t2.syms
      · rw [e1, e2, if_neg h1, if_pos h2, if_pos (Finset.mem_union_right _ h2)]
      · rw [e1, e2, if_neg h1, if_neg h2,
          if_neg (by simp [Finset.mem_union, h1, h2])]

/-- The weight of a consistent tree is the sum of its symbol frequencies. -/
theorem weight_eq_sum {α : Type} [DecidableEq α] (t : HTree α) (hc : t.consistent) :
    t.weight = ∑ x ∈ t.syms, t.freqS x := by
  induction t with
  | leaf w c => simp [HTree.weight, HTree.syms, HTree.freqS]
  | node t1 t2 ih1 ih2 =>
    obtain ⟨hd, hc1, hc2⟩ := hc
    have hdisj : Disjoint t1.syms t2.syms := Finset.disjoint_iff_inter_eq_empty.mpr hd
    show t1.weight + t2.weight = ∑ x ∈ t1.syms ∪ t2.syms, (t1.freqS x + t2.freqS x)
    rw [Finset.sum_union hdisj]
    have h1 : ∑ x ∈ t1.syms, (t1.freqS x + t2.freqS x) = ∑ x ∈ t1.syms, t1.freqS x := by
      refine Finset.sum_congr rfl fun x hx => ?_
      have := freqS_eq_zero_of_not_mem t2 x (not_mem_of_inter_empty hd hx)
      omega
    have h2 : ∑ x ∈ t2.syms, (t1.freqS x + t2.freqS x) = ∑ x ∈ t2.syms, t2.freqS x := by
      refine Finset.sum_congr rfl fun x hx => ?_
      have := freqS_eq_zero_of_not_mem t1 x
        (fun hx1 => not_mem_of_inter_empty hd hx1 hx)
      omega
    rw [h1, h2, ih1 hc1, ih2 hc2]

/-- The cost of a consistent tree is the frequency-weighted sum of depths. -/
theorem cost_eq_sum {α : Type} [DecidableEq α] (t : HTree α) (hc : t.consistent) :
    t.cost = ∑ x ∈ t.syms, t.freqS x * t.depthS x := by
  induction t with
  | leaf w c => simp [HTree.cost, HTree.syms, HTree.depthS]
  | node t1 t2 ih1 ih2 =>
    obtain ⟨hd, hc1, hc2⟩ := hc
    have hdisj : Disjoint t1.syms t2.syms := Finset.disjoint_iff_inter_eq_empty.mpr hd
    show t1.weight + t1.cost + t2.weight + t2.cost
        = ∑ x ∈ t1.syms ∪ t2.syms,
            (t1.freqS x + t2.freqS x) * HTree.depthS (.node t1 t2) x
    rw [Finset.sum_union hdisj]
    have h1 : ∑ x ∈ t1.syms, (t1.freqS x + t2.freqS x) * HTree.depthS (.node t1 t2) x
        = ∑ x ∈ t1.syms, (t1.freqS x * t1.depthS x + t1.freqS x) := by
      refine Finset.sum_congr rfl fun x hx => ?_
      have hz := freqS_eq_zero_of_not_mem t2 x (not_mem_of_inter_empty hd hx)
      have hdep : HTree.depthS (.node t1 t2) x = t1.depthS x + 1 := by
        simp only [HTree.depthS, if_pos hx]
      rw [hdep, hz]
      ring
    have h2 : ∑ x ∈ t2.syms, (t1.freqS x + t2.freqS x) * HTree.depthS (.node t1 t2) x
        = ∑ x ∈ t2.syms, (t2.freqS x * t2.depthS x + t2.freqS x) := by
      refine Finset.sum_congr rfl fun x hx => ?_
      have hx1 : x ∉ t1.syms := fun hx1 => not_mem_of_inter_empty hd hx1 hx
      have hz := freqS_eq_zero_of_not_mem t1 x hx1
      have hdep : HTree.depthS (.node t1 t2) x = t2.depthS x + 1 := by
        simp only [HTree.depthS, if_neg hx1, if_pos hx]
      rw [hdep, hz]
      ring
    rw [h1, h2, Finset.sum_add_distrib, Finset.sum_add_distrib,
      ← weight_eq_sum t1 hc1, ← weight_eq_sum t2 hc2, ← ih1 hc1, ← ih2 hc2]
    ring

/-- The alphabet of a swapped tree, membership form. -/
theorem mem_syms_swapLeaves {α : Type} [DecidableEq α] (wa : Nat) (a : α) (wb : Nat)
    (b : α) (hab : a ≠ b) (t : HTree α) (x : α) :
    x ∈ (swapLeaves wa a wb b t).syms ↔
      (x = b ∧ a ∈ t.syms) ∨ (x = a ∧ b ∈ t.syms) ∨ (x ≠ a ∧ x ≠ b ∧ x ∈ t.syms) := by
  induction t with
  | leaf w c =>
    simp only [swapLeaves]
    by_cases hca : c = a
    · rw [if_pos hca]
      simp only [HTree.syms, Finset.mem_singleton]
      constructor
      · intro hx; exact Or.inl ⟨hx, hca.symm⟩
      · rintro (⟨hx, -⟩ | ⟨-, hbc⟩ | ⟨hxa, -, hxc⟩)
        · exact hx
        · exact absurd (hbc.trans hca) (fun h => hab h.symm)
        · exact absurd (hxc.trans hca) hxa
    · by_cases hcb : c = b
      · rw [if_neg hca, if_pos hcb]
        simp only [HTree.syms, Finset.mem_singleton]
        constructor
        · intro hx; exact Or.inr (Or.inl ⟨hx, hcb.symm⟩)
        · rintro (⟨-, hac⟩ | ⟨hx, -⟩ | ⟨-, hxb, hxc⟩)
          · exact absurd (hac.trans hcb) hab
          · exact hx
          · exact absurd (hxc.trans hcb) hxb
      · rw [if_neg hca, if_neg hcb]
        simp only [HTree.syms, Finset.mem_singleton]
        constructor
        · intro hx
          exact Or.inr (Or.inr
            ⟨fun h => hca (hx.symm.trans h), fun h => hcb (hx.symm.trans h), hx⟩)
        · rintro (⟨-, hac⟩ | ⟨-, hbc⟩ | ⟨-, -, hx⟩)
          · exact absurd hac.symm hca
          · exact absurd hbc.symm hcb
          · exact hx
  | node t1 t2 ih1 ih2 =>
    simp only [swapLeaves, HTree.syms, Finset.mem_union, ih1, ih2]
    constructor
    · rintro ((h | h | h) | (h | h | h))
      · exact Or.inl ⟨h.1, Or.inl h.2⟩
      · exact Or.inr (Or.inl ⟨h.1, Or.inl h.2⟩)
      · exact Or.inr (Or.inr ⟨h.1, h.2.1, Or.inl h.2.2⟩)
      · exact Or.inl ⟨h.1, Or.inr h.2⟩
      · exact Or.inr (Or.inl ⟨h.1, Or.inr h.2⟩)
      · exact Or.inr (Or.inr ⟨h.1, h.2.1, Or.inr h.2.2⟩)
    · rintro (⟨e, m | m⟩ | ⟨e, m | m⟩ | ⟨e1, e2, m | m⟩)
      · exact Or.inl (Or.inl ⟨e, m⟩)
      · exact Or.inr (Or.inl ⟨e, m⟩)
      · exact Or.inl (Or.inr (Or.inl ⟨e, m⟩))
      · exact Or.inr (Or.inr (Or.inl ⟨e, m⟩))
      · exact Or.inl (Or.inr (Or.inr ⟨e1, e2, m⟩))
      · exact Or.inr (Or.inr (Or.inr ⟨e1, e2, m⟩))

/-- Swapping two leaves preserves consistency. -/
theorem consistent_swapLeaves {α : Type} [DecidableEq α] {wa wb : Nat} {a b : α}
    (hab : a ≠ b) {t : HTree α} (hc : t.consistent) :
    (swapLeaves wa a wb b t).consistent := by
  induction t with
  | leaf w c =>
    simp only [swapLeaves]
    split_ifs <;> trivial
  | node t1 t2 ih1 ih2 =>
    obtain ⟨hd, hc1, hc2⟩ := hc
    refine ⟨?_, ih1 hc1, ih2 hc2⟩
    rw [Finset.eq_empty_iff_forall_not_mem]
    intro x hx
    rw [Finset.mem_inter, mem_syms_swapLeaves wa a wb b hab,
      mem_syms_swapLeaves wa a wb b hab] at hx
    obtain ⟨h1, h2⟩ := hx
    rcases h1 with ⟨e1, m1⟩ | ⟨e1, m1⟩ | ⟨e1a, e1b, m1⟩ <;>
      rcases h2 with ⟨e2, m2⟩ | ⟨e2, m2⟩ | ⟨e2a, e2b, m2⟩
    · exact not_mem_of_inter_empty hd m1 m2
    · exact hab (e1.symm.trans e2).symm
    · exact e2b e1
    · exact hab (e1.symm.trans e2)
    · exact not_mem_of_inter_empty hd m1 m2
    · exact e2a e1
    · exact e1b e2
    · exact e1a e2
    · exact not_mem_of_inter_empty hd m1 m2

/-- Swapping leaves is symmetric in its two symbol arguments. -/
theorem swapLeaves_comm {α : Type} [DecidableEq α] (wa : Nat) (a : α) (wb : Nat) (b : α)
    (hab : a ≠ b) (t : HTree α) :
    swapLeaves wa a wb b t = swapLeaves wb b wa a t := by
  induction t with
  | leaf w c =>
    simp only [swapLeaves]
    by_cases h1 : c = a
    · subst h1
      rw [if_pos rfl, if_neg hab, if_pos rfl]
    · by_cases h2 : c = b
      · subst h2
        rw [if_neg h1, if_pos rfl, if_pos rfl]
      · rw [if_neg h1, if_neg h2, if_neg h2, if_neg h1]
  | node t1 t2 ih1 ih2 =>
    simp only [swapLeaves, ih1, ih2]

/-- Frequencies of symbols other than the two swapped ones are unchanged. -/
theorem freqS_swapLeaves_other {α : Type} [DecidableEq α] (wa : Nat) (a : α) (wb : Nat)
    (b : α) (t : HTree α) (x : α) (hxa : x ≠ a) (hxb : x ≠ b) :
    (swapLeaves wa a wb b t).freqS x = t.freqS x := by
  induction t with
  | leaf w c =>
    simp only [swapLeaves]
    split_ifs with h1 h2
    · have hxc : ¬x = c := fun h => hxa (h.trans h1)
      simp [HTree.freqS, hxb, hxc]
    · have hxc : ¬x = c := fun h => hxb (h.trans h2)
      simp [HTree.freqS, hxa, hxc]
    · rfl
  | node t1 t2 ih1 ih2 =>
    simp only [swapLeaves, HTree.freqS, ih1, ih2]

/-- After the swap, symbol `a` carries weight `wa` at `b`'s old position. -/
theorem freqS_swapLeaves_left {α : Type} [DecidableEq α] (wa : Nat) (a : α) (wb : Nat)
    (b : α) (hab : a ≠ b) (t : HTree α) :
    (swapLeaves wa a wb b t).freqS a = wa * t.cnt b := by
  induction t with
  | leaf w c =>
    simp only [swapLeaves]
    by_cases h1 : c = a
    · rw [if_pos h1]
      have hcb : ¬c = b := fun h => hab (h1.symm.trans h)
      simp [HTree.freqS, HTree.cnt, hab, hcb]
    · by_cases h2 : c = b
      · rw [if_neg h1, if_pos h2]
        simp [HTree.freqS, HTree.cnt, h2]
      · rw [if_neg h1, if_neg h2]
        have hac : ¬a = c := fun h => h1 h.symm
        simp [HTree.freqS, HTree.cnt, hac, h2]
  | node t1 t2 ih1 ih2 =>
    simp only [swapLeaves, HTree.freqS, HTree.cnt, ih1, ih2, Nat.mul_add]

/-- After the swap, symbol `b` carries weight `wb` at `a`'s old position. -/
theorem freqS_swapLeaves_right {α : Type} [DecidableEq α] (wa : Nat) (a : α) (wb : Nat)
    (b : α) (hab : a ≠ b) (t : HTree α) :
    (swapLeaves wa a wb b t).freqS b = wb * t.cnt a := by
  rw [swapLeaves_comm wa a wb b hab]
  exact freqS_swapLeaves_left wb b wa a hab.symm t

/-- Depths of symbols other than the two swapped ones are unchanged. -/
theorem depthS_swapLeaves_other {α : Type} [DecidableEq α] (wa : Nat) (a : α) (wb : Nat)
    (b : α) (hab : a ≠ b) (t : HTree α) (x : α) (hxa : x ≠ a) (hxb : x ≠ b) :
    (swapLeaves wa a wb b t).depthS x = t.depthS x := by
  induction t with
  | leaf w c =>
    simp only [swapLeaves]
    split_ifs <;> rfl
  | node t1 t2 ih1 ih2 =>
    have hm1 : x ∈ (swapLeaves wa a wb b t1).syms ↔ x ∈ t1.syms := by
      rw [mem_syms_swapLeaves wa a wb b hab]
      simp [hxa, hxb]
    have hm2 : x ∈ (swapLeaves wa a wb b t2).syms ↔ x ∈ t2.syms := by
      rw [mem_syms_swapLeaves wa a wb b hab]
      simp [hxa, hxb]
    simp only [swapLeaves, HTree.depthS]
    by_cases hx1 : x ∈ t1.syms
    · rw [if_pos (hm1.mpr hx1), if_pos hx1, ih1]
    · rw [if_neg (fun h => hx1 (hm1.mp h)), if_neg hx1]
      by_cases hx2 : x ∈ t2.syms
      · rw [if_pos (hm2.mpr hx2), if_pos hx2, ih2]
      · rw [if_neg (fun h => hx2 (hm2.mp h)), if_neg hx2]

/-- The swapped-in symbol `a` sits exactly where `b` used to sit. -/
theorem depthS_swapLeaves_left {α : Type} [DecidableEq α] (wa : Nat) (a : α) (wb : Nat)
    (b : α) (hab : a ≠ b) (t : HTree α) :
    (swapLeaves wa a wb b t).depthS a = t.depthS b := by
  induction t with
  | leaf w c =>
    simp only [swapLeaves]
    split_ifs <;> rfl
  | node t1 t2 ih1 ih2 =>
    have hm1 : a ∈ (swapLeaves wa a wb b t1).syms ↔ b ∈ t1.syms := by
      rw [mem_syms_swapLeaves wa a wb b hab]
      simp [hab]
    have hm2 : a ∈ (swapLeaves wa a wb b t2).syms ↔ b ∈ t2.syms := by
      rw [mem_syms_swapLeaves wa a wb b hab]
      simp [hab]
    simp only [swapLeaves, HTree.depthS]
    by_cases hx1 : b ∈ t1.syms
    · rw [if_pos (hm1.mpr hx1), if_pos hx1, ih1]
    · rw [if_neg (fun h => hx1 (hm1.mp h)), if_neg hx1]
      by_cases hx2 : b ∈ t2.syms
      · rw [if_pos (hm2.mpr hx2), if_pos hx2, ih2]
      · rw [if_neg (fun h => hx2 (hm2.mp h)), if_neg hx2]

/-- The swapped-in symbol `b` sits exactly where `a` used to sit. -/
theorem depthS_swapLeaves_right {α : Type} [DecidableEq α] (wa : Nat) (a : α) (wb : Nat)
    (b : α) (hab : a ≠ b) (t : HTree α) :
    (swapLeaves wa a wb b t).depthS b = t.depthS a := by
  rw [swapLeaves_comm wa a wb b hab]
  exact depthS_swapLeaves_left wb b wa a hab.symm t

/-- The 2x2 rearrangement inequality: aligning the larger frequency with the
larger depth gives the larger weighted sum. -/
theorem mul_rearrange_le {fa fb da db : Nat} (hf : fa ≤ fb) (hd : da ≤ db) :
    fa * db + fb * da ≤ fa * da + fb * db := by
  obtain ⟨s, rfl⟩ := Nat.exists_eq_add_of_le hf
  obtain ⟨r, rfl⟩ := Nat.exists_eq_add_of_le hd
  have hsr : 0 ≤ s * r := Nat.zero_le _
  nlinarith [hsr]

/-- Swapping two present symbols (at their true frequencies) preserves
consistency, the alphabet and the frequency map, and exchanges the two
depths in the cost. -/
theorem swapLeaves_valid {α : Type} [DecidableEq α] (t : HTree α) (x y : α)
    (hc : t.consistent) (hxy : x ≠ y) (hx : x ∈ t.syms) (hy : y ∈ t.syms) :
    (swapLeaves (t.freqS x) x (t.freqS y) y t).consistent ∧
      (swapLeaves (t.freqS x) x (t.freqS y) y t).syms = t.syms ∧
      (swapLeaves (t.freqS x) x (t.freqS y) y t).freqS = t.freqS ∧
      (swapLeaves (t.freqS x) x (t.freqS y) y t).cost
          + t.freqS x * t.depthS x + t.freqS y * t.depthS y
        = t.cost + t.freqS x * t.depthS y + t.freqS y * t.depthS x := by
  have hcons : (swapLeaves (t.freqS x) x (t.freqS y) y t).consistent :=
    consistent_swapLeaves hxy hc
  have hsyms : (swapLeaves (t.freqS x) x (t.freqS y) y t).syms = t.syms := by
    ext z
    rw [mem_syms_swapLeaves _ _ _ _ hxy]
    constructor
    · rintro (⟨e, -⟩ | ⟨e, -⟩ | ⟨-, -, m⟩)
      · exact e ▸ hy
      · exact e ▸ hx
      · exact m
    · intro hz
      by_cases h1 : z = x
      · exact Or.inr (Or.inl ⟨h1, hy⟩)
      · by_cases h2 : z = y
        · exact Or.inl ⟨h2, hx⟩
        · exact Or.inr (Or.inr ⟨h1, h2, hz⟩)
  have hfreq : (swapLeaves (t.freqS x) x (t.freqS y) y t).freqS = t.freqS := by
    funext z
    by_cases h1 : z = x
    · subst h1
      rw [freqS_swapLeaves_left _ _ _ _ hxy, cnt_of_consistent t hc, if_pos hy,
        Nat.mul_one]
    · by_cases h2 : z = y
      · subst h2
        rw [freqS_swapLeaves_right _ _ _ _ hxy, cnt_of_consistent t hc, if_pos hx,
          Nat.mul_one]
      · exact freqS_swapLeaves_other _ _ _ _ t z h1 h2
  refine ⟨hcons, hsyms, hfreq, ?_⟩
  have hy' : y ∈ t.syms.erase x := Finset.mem_erase.mpr ⟨fun h => hxy h.symm, hy⟩
  have hS : ∑ z ∈ (t.syms.erase x).erase y,
        t.freqS z * (swapLeaves (t.freqS x) x (t.freqS y) y t).depthS z
      = ∑ z ∈ (t.syms.erase x).erase y, t.freqS z * t.depthS z := by
    refine Finset.sum_congr rfl fun z hz => ?_
    have hzy : z ≠ y := (Finset.mem_erase.mp hz).1
    have hzx : z ≠ x := (Finset.mem_erase.mp (Finset.mem_erase.mp hz).2).1
    rw [depthS_swapLeaves_other _ _ _ _ hxy t z hzx hzy]
  have e1 : (swapLeaves (t.freqS x) x (t.freqS y) y t).cost
      = t.freqS x * t.depthS y + (t.freqS y * t.depthS x
          + ∑ z ∈ (t.syms.erase x).erase y, t.freqS z * t.depthS z) := by
    rw [cost_eq_sum _ hcons, hsyms, hfreq, ← Finset.add_sum_erase _ _ hx,
      ← Finset.add_sum_erase _ _ hy', depthS_swapLeaves_left _ _ _ _ hxy,
      depthS_swapLeaves_right _ _ _ _ hxy, hS]
  have e2 : t.cost
      = t.freqS x * t.depthS x + (t.freqS y * t.depthS y
          + ∑ z ∈ (t.syms.erase x).erase y, t.freqS z * t.depthS z) := by
    rw [cost_eq_sum t hc, ← Finset.add_sum_erase _ _ hx, ← Finset.add_sum_erase _ _ hy']
  rw [e1, e2]
  ring

/-- Both members of a sibling pair occur in the tree. -/
theorem SP_mem {α : Type} [DecidableEq α] {a b : α} {t : HTree α} (h : SP a b t) :
    a ∈ t.syms ∧ b ∈ t.syms := by
  induction h with
  | pair w w' => simp [HTree.syms]
  | pair2 w w' => simp [HTree.syms]
  | left h ih => exact ⟨by simp [HTree.syms, Finset.mem_union, ih.1],
      by simp [HTree.syms, Finset.mem_union, ih.2]⟩
  | right h ih => exact ⟨by simp [HTree.syms, Finset.mem_union, ih.1],
      by simp [HTree.syms, Finset.mem_union, ih.2]⟩

/-- Siblinghood is symmetric. -/
theorem SP_symm {α : Type} [DecidableEq α] {a b : α} {t : HTree α} (h : SP a b t) :
    SP b a t := by
  induction h with
  | pair w w' => exact SP.pair2 w w'
  | pair2 w w' => exact SP.pair w w'
  | left h ih => exact SP.left ih
  | right h ih => exact SP.right ih

/-- Swapping leaves relabels a sibling pair by the transposition. -/
theorem SP_swapLeaves {α : Type} [DecidableEq α] {c d : α} {t : HTree α} (h : SP c d t)
    (wa : Nat) (a : α) (wb : Nat) (b : α) :
    SP (if c = a then b else if c = b then a else c)
      (if d = a then b else if d = b then a else d) (swapLeaves wa a wb b t) := by
  induction h with
  | pair w w' =>
    simp only [swapLeaves]
    split_ifs <;> exact SP.pair _ _
  | pair2 w w' =>
    simp only [swapLeaves]
    split_ifs <;> exact SP.pair2 _ _
  | left h ih => exact SP.left ih
  | right h ih => exact SP.right ih

/-- Every consistent internal tree has a sibling pair of leaves at maximum
depth. -/
theorem exists_max_sib {α : Type} [DecidableEq α] :
    ∀ (u : HTree α), u.consistent → (∃ x y, u = HTree.node x y) →
      ∃ c d, SP c d u ∧ c ≠ d ∧ u.depthS c = u.height ∧ u.depthS d = u.height := by
  intro u
  induction u with
  | leaf w a =>
    rintro - ⟨x, y, h⟩
    exact HTree.noConfusion h
  | node u1 u2 ih1 ih2 =>
    rintro hc -
    obtain ⟨hd, hc1, hc2⟩ := hc
    by_cases hh : u2.height ≤ u1.height
    · cases u1 with
      | leaf w c =>
        have h2 : u2.height = 0 := by
          have := hh
          simp only [HTree.height] at this
          omega
        obtain ⟨w', d, rfl⟩ := (height_eq_zero_iff u2).mp h2
        have hcd : c ≠ d := by
          intro h
          have hcmem : c ∈ (HTree.leaf w c).syms := by simp [HTree.syms]
          exact not_mem_of_inter_empty hd hcmem (by simp [HTree.syms, h])
        refine ⟨c, d, SP.pair w w', hcd, ?_, ?_⟩
        · simp [HTree.depthS, HTree.syms, HTree.height]
        · simp [HTree.depthS, HTree.syms, HTree.height, fun h : d = c => hcd h.symm]
      | node v1 v2 =>
        obtain ⟨c, d, hsp, hcd, hdc, hdd⟩ := ih1 hc1 ⟨v1, v2, rfl⟩
        have hc_mem := (SP_mem hsp).1
        have hd_mem := (SP_mem hsp).2
        have hH : (HTree.node (v1.node v2) u2).height
            = max (v1.node v2).height u2.height + 1 := rfl
        refine ⟨c, d, SP.left hsp, hcd, ?_, ?_⟩
        · show (if c ∈ (v1.node v2).syms then (v1.node v2).depthS c + 1
              else if c ∈ u2.syms then u2.depthS c + 1 else 0)
            = (HTree.node (v1.node v2) u2).height
          rw [if_pos hc_mem, hdc, hH, Nat.max_eq_left hh]
        · show (if d ∈ (v1.node v2).syms then (v1.node v2).depthS d + 1
              else if d ∈ u2.syms then u2.depthS d + 1 else 0)
            = (HTree.node (v1.node v2) u2).height
          rw [if_pos hd_mem, hdd, hH, Nat.max_eq_left hh]
    · push_neg at hh
      cases u2 with
      | leaf w c => simp [HTree.height] at hh
      | node v1 v2 =>
        obtain ⟨c, d, hsp, hcd, hdc, hdd⟩ := ih2 hc2 ⟨v1, v2, rfl⟩
        have hc_mem := (SP_mem hsp).1
        have hd_mem := (SP_mem hsp).2
        have hc_not1 : c ∉ u1.syms := fun hmem => not_mem_of_inter_empty hd hmem hc_mem
        have hd_not1 : d ∉ u1.syms := fun hmem => not_mem_of_inter_empty hd hmem hd_mem
        have hH : (HTree.node u1 (v1.node v2)).height
            = max u1.height (v1.node v2).height + 1 := rfl
        refine ⟨c, d, SP.right hsp, hcd, ?_, ?_⟩
        · show (if c ∈ u1.syms then u1.depthS c + 1
              else if c ∈ (v1.node v2).syms then (v1.node v2).depthS c + 1 else 0)
            = (HTree.node u1 (v1.node v2)).height
          rw [if_neg hc_not1, if_pos hc_mem, hdc, hH, Nat.max_eq_right (Nat.le_of_lt hh)]
        · show (if d ∈ u1.syms then u1.depthS d + 1
              else if d ∈ (v1.node v2).syms then (v1.node v2).depthS d + 1 else 0)
            = (HTree.node u1 (v1.node v2)).height
          rw [if_neg hd_not1, if_pos hd_mem, hdd, hH, Nat.max_eq_right (Nat.le_of_lt hh)]

/-- Reduction of `mergeSib` when the left child is internal. -/
theorem mergeSib_node_left {α : Type} [DecidableEq α] (a b : α) (x y t2 : HTree α) :
    mergeSib a b (.node (.node x y) t2)
      = .node (mergeSib a b (.node x y)) (mergeSib a b t2) := rfl

/-- Reduction of `mergeSib` when the right child is internal. -/
theorem mergeSib_node_right {α : Type} [DecidableEq α] (a b : α) (t1 x y : HTree α) :
    mergeSib a b (.node t1 (.node x y))
      = .node (mergeSib a b t1) (mergeSib a b (.node x y)) := by
  cases t1 <;> rfl

/-- Every sibling pair lives in an internal tree. -/
theorem SP_node {α : Type} [DecidableEq α] {a b : α} {t : HTree α} (h : SP a b t) :
    ∃ x y, t = HTree.node x y := by
  cases h <;> exact ⟨_, _, rfl⟩

/-- A tree not containing `a` is unchanged by the merge. -/
theorem mergeSib_of_not_mem {α : Type} [DecidableEq α] (a b : α) (t : HTree α)
    (h : a ∉ t.syms) : mergeSib a b t = t := by
  induction t with
  | leaf w c => rfl
  | node t1 t2 ih1 ih2 =>
    have h1 : a ∉ t1.syms := fun hh => h (by simp [HTree.syms, Finset.mem_union, hh])
    have h2 : a ∉ t2.syms := fun hh => h (by simp [HTree.syms, Finset.mem_union, hh])
    cases t1 with
    | leaf w c =>
      cases t2 with
      | leaf w' d =>
        have hca : ¬c = a := fun hh => h1 (by simp [HTree.syms, hh])
        have hda : ¬d = a := fun hh => h2 (by simp [HTree.syms, hh])
        simp only [mergeSib]
        rw [if_neg]
        rintro (⟨h1', -⟩ | ⟨-, h2'⟩)
        · exact hca h1'
        · exact hda h2'
      | node x y =>
        rw [mergeSib_node_right, ih2 h2, ih1 h1]
    | node x y =>
      rw [mergeSib_node_left, ih1 h1, ih2 h2]

/-- Merging a sibling pair preserves total weight. -/
theorem weight_mergeSib {α : Type} [DecidableEq α] (a b : α) (t : HTree α) :
    (mergeSib a b t).weight = t.weight := by
  induction t with
  | leaf w c => rfl
  | node t1 t2 ih1 ih2 =>
    cases t1 with
    | leaf w c =>
      cases t2 with
      | leaf w' d =>
        simp only [mergeSib]
        split_ifs <;> simp [HTree.weight]
      | node x y =>
        rw [mergeSib_node_right]
        simp only [HTree.weight] at ih2 ⊢
        omega
    | node x y =>
      rw [mergeSib_node_left]
      simp only [HTree.weight] at ih1 ih2 ⊢
      omega

/-- Merging removes `b` from the alphabet (the pair collapses onto `a`). -/
theorem syms_mergeSib {α : Type} [DecidableEq α] {a b : α} {t : HTree α}
    (hab : a ≠ b) (hsp : SP a b t) :
    t.consistent → (mergeSib a b t).syms = t.syms.erase b := by
  induction hsp with
  | pair w w' =>
    intro _
    have : mergeSib a b (HTree.node (.leaf w a) (.leaf w' b))
        = HTree.leaf (w + w') a := by simp [mergeSib]
    rw [this]
    ext z
    simp only [HTree.syms, Finset.mem_erase, Finset.mem_union, Finset.mem_singleton]
    constructor
    · rintro rfl; exact ⟨hab, Or.inl rfl⟩
    · rintro ⟨hzb, rfl | rfl⟩
      · rfl
      · exact absurd rfl hzb
  | pair2 w w' =>
    intro _
    have : mergeSib a b (HTree.node (.leaf w b) (.leaf w' a))
        = HTree.leaf (w + w') a := by simp [mergeSib]
    rw [this]
    ext z
    simp only [HTree.syms, Finset.mem_erase, Finset.mem_union, Finset.mem_singleton]
    constructor
    · rintro rfl; exact ⟨hab, Or.inr rfl⟩
    · rintro ⟨hzb, rfl | rfl⟩
      · exact absurd rfl hzb
      · rfl
  | left h ih =>
    intro hc
    obtain ⟨hd, hc1, hc2⟩ := hc
    obtain ⟨x, y, rfl⟩ := SP_node h
    have hbs : b ∉ _ := fun hh => not_mem_of_inter_empty hd (SP_mem h).2 hh
    have has : a ∉ _ := fun hh => not_mem_of_inter_empty hd (SP_mem h).1 hh
    rw [mergeSib_node_left, mergeSib_of_not_mem a b _ has]
    show (mergeSib a b (x.node y)).syms ∪ _ = _
    rw [ih hc1]
    ext z
    simp only [HTree.syms, Finset.mem_erase, Finset.mem_union]
    constructor
    · rintro (⟨hzb, hz⟩ | hz)
      · exact ⟨hzb, Or.inl hz⟩
      · exact ⟨fun hh => hbs (hh ▸ hz), Or.inr hz⟩
    · rintro ⟨hzb, hz | hz⟩
      · exact Or.inl ⟨hzb, hz⟩
      · exact Or.inr hz
  | right h ih =>
    intro hc
    obtain ⟨hd, hc1, hc2⟩ := hc
    obtain ⟨x, y, rfl⟩ := SP_node h
    have hbs : b ∉ _ := fun hh => not_mem_of_inter_empty hd hh (SP_mem h).2
    have has : a ∉ _ := fun hh => not_mem_of_inter_empty hd hh (SP_mem h).1
    rw [mergeSib_node_right, mergeSib_of_not_mem a b _ has]
    show _ ∪ (mergeSib a b (x.node y)).syms = _
    rw [ih hc2]
    ext z
    simp only [HTree.syms, Finset.mem_erase, Finset.mem_union]
    constructor
    · rintro (hz | ⟨hzb, hz⟩)
      · exact ⟨fun hh => hbs (hh ▸ hz), Or.inl hz⟩
      · exact ⟨hzb, Or.inr hz⟩
    · rintro ⟨hzb, hz | hz⟩
      · exact Or.inl hz
      · exact Or.inr ⟨hzb, hz⟩

/-- Merging a sibling pair preserves consistency. -/
theorem consistent_mergeSib {α : Type} [DecidableEq α] {a b : α} {t : HTree α}
    (hab : a ≠ b) (hsp : SP a b t) :
    t.consistent → (mergeSib a b t).consistent := by
  induction hsp with
  | pair w w' =>
    intro _
    have : mergeSib a b (HTree.node (.leaf w a) (.leaf w' b))
        = HTree.leaf (w + w') a := by simp [mergeSib]
    rw [this]
    trivial
  | pair2 w w' =>
    intro _
    have : mergeSib a b (HTree.node (.leaf w b) (.leaf w' a))
        = HTree.leaf (w + w') a := by simp [mergeSib]
    rw [this]
    trivial
  | left h ih =>
    intro hc
    obtain ⟨hd, hc1, hc2⟩ := hc
    obtain ⟨x, y, rfl⟩ := SP_node h
    have has : a ∉ _ := fun hh => not_mem_of_inter_empty hd (SP_mem h).1 hh
    rw [mergeSib_node_left, mergeSib_of_not_mem a b _ has]
    refine ⟨?_, ih hc1, hc2⟩
    rw [syms_mergeSib hab h hc1, Finset.eq_empty_iff_forall_not_mem]
    intro z hz
    rw [Finset.mem_inter, Finset.mem_erase] at hz
    exact not_mem_of_inter_empty hd hz.1.2 hz.2
  | right h ih =>
    intro hc
    obtain ⟨hd, hc1, hc2⟩ := hc
    obtain ⟨x, y, rfl⟩ := SP_node h
    have has : a ∉ _ := fun hh => not_mem_of_inter_empty hd hh (SP_mem h).1
    rw [mergeSib_node_right, mergeSib_of_not_mem a b _ has]
    refine ⟨?_, hc1, ih hc2⟩
    rw [syms_mergeSib hab h hc2, Finset.eq_empty_iff_forall_not_mem]
    intro z hz
    rw [Finset.mem_inter, Finset.mem_erase] at hz
    exact not_mem_of_inter_empty hd hz.1 hz.2.2

/-- Frequencies after the merge: `b` loses its weight, `a` gains it, all
other symbols are unchanged. -/
theorem freqS_mergeSib {α : Type} [DecidableEq α] {a b : α} {t : HTree α}
    (hab : a ≠ b) (hsp : SP a b t) :
    t.consistent → ∀ x, (mergeSib a b t).freqS x + (if x = b then t.freqS b else 0)
      = t.freqS x + (if x = a then t.freqS b else 0) := by
  induction hsp with
  | pair w w' =>
    intro _ x
    have hm : mergeSib a b (HTree.node (.leaf w a) (.leaf w' b))
        = HTree.leaf (w + w') a := by simp [mergeSib]
    rw [hm]
    have hba : ¬b = a := fun hh => hab hh.symm
    by_cases hxa : x = a
    · subst hxa
      simp [HTree.freqS, hab, hba]
    · by_cases hxb : x = b
      · subst hxb
        simp [HTree.freqS, hab, hba, hxa]
      · simp [HTree.freqS, hxa, hxb]
  | pair2 w w' =>
    intro _ x
    have hm : mergeSib a b (HTree.node (.leaf w b) (.leaf w' a))
        = HTree.leaf (w + w') a := by simp [mergeSib]
    rw [hm]
    have hba : ¬b = a := fun hh => hab hh.symm
    by_cases hxa : x = a
    · subst hxa
      simp [HTree.freqS, hab, hba]
      omega
    · by_cases hxb : x = b
      · subst hxb
        simp [HTree.freqS, hab, hba, hxa]
      · simp [HTree.freqS, hxa, hxb]
  | left h ih =>
    rename_i tL tR
    intro hc x
    obtain ⟨hd, hc1, hc2⟩ := hc
    obtain ⟨xx, yy, rfl⟩ := SP_node h
    have has : a ∉ _ := fun hh => not_mem_of_inter_empty hd (SP_mem h).1 hh
    have hbs : b ∉ _ := fun hh => not_mem_of_inter_empty hd (SP_mem h).2 hh
    rw [mergeSib_node_left, mergeSib_of_not_mem a b _ has]
    have hzb : tR.freqS b = 0 := freqS_eq_zero_of_not_mem _ b hbs
    have hkey := ih hc1 x
    have e1 : ∀ y : α, (HTree.node (mergeSib a b (xx.node yy)) tR).freqS y
        = (mergeSib a b (xx.node yy)).freqS y + tR.freqS y := fun y => rfl
    have e2 : ∀ y : α, (HTree.node (xx.node yy) tR).freqS y
        = (xx.node yy).freqS y + tR.freqS y := fun y => rfl
    rw [e1, e2, e2]
    split_ifs at hkey ⊢ <;> omega
  | right h ih =>
    rename_i tL tR
    intro hc x
    obtain ⟨hd, hc1, hc2⟩ := hc
    obtain ⟨xx, yy, rfl⟩ := SP_node h
    have has : a ∉ _ := fun hh => not_mem_of_inter_empty hd hh (SP_mem h).1
    have hbs : b ∉ _ := fun hh => not_mem_of_inter_empty hd hh (SP_mem h).2
    rw [mergeSib_node_right, mergeSib_of_not_mem a b _ has]
    have hzb : tL.freqS b = 0 := freqS_eq_zero_of_not_mem _ b hbs
    have hkey := ih hc2 x
    have e1 : ∀ y : α, (HTree.node tL (mergeSib a b (xx.node yy))).freqS y
        = tL.freqS y + (mergeSib a b (xx.node yy)).freqS y := fun y => rfl
    have e2 : ∀ y : α, (HTree.node tL (xx.node yy)).freqS y
        = tL.freqS y + (xx.node yy).freqS y := fun y => rfl
    rw [e1, e2, e2]
    split_ifs at hkey ⊢ <;> omega

/-- Merging a sibling pair lowers the cost by exactly the pair's weight. -/
theorem cost_mergeSib {α : Type} [DecidableEq α] {a b : α} {t : HTree α}
    (hab : a ≠ b) (hsp : SP a b t) :
    t.consistent → (mergeSib a b t).cost + t.freqS a + t.freqS b = t.cost := by
  induction hsp with
  | pair w w' =>
    intro _
    have hm : mergeSib a b (HTree.node (.leaf w a) (.leaf w' b))
        = HTree.leaf (w + w') a := by simp [mergeSib]
    rw [hm]
    have hba : ¬b = a := fun hh => hab hh.symm
    simp [HTree.cost, HTree.freqS, HTree.weight, hab, hba]
  | pair2 w w' =>
    intro _
    have hm : mergeSib a b (HTree.node (.leaf w b) (.leaf w' a))
        = HTree.leaf (w + w') a := by simp [mergeSib]
    rw [hm]
    have hba : ¬b = a := fun hh => hab hh.symm
    simp [HTree.cost, HTree.freqS, HTree.weight, hab, hba]
    omega
  | left h ih =>
    rename_i tL tR
    intro hc
    obtain ⟨hd, hc1, hc2⟩ := hc
    obtain ⟨xx, yy, rfl⟩ := SP_node h
    have has : a ∉ _ := fun hh => not_mem_of_inter_empty hd (SP_mem h).1 hh
    have hbs : b ∉ _ := fun hh => not_mem_of_inter_empty hd (SP_mem h).2 hh
    rw [mergeSib_node_left, mergeSib_of_not_mem a b _ has]
    have hza : tR.freqS a = 0 := freqS_eq_zero_of_not_mem _ a has
    have hzb : tR.freqS b = 0 := freqS_eq_zero_of_not_mem _ b hbs
    have hw := weight_mergeSib a b (xx.node yy)
    have hkey := ih hc1
    have ec1 : (HTree.node (mergeSib a b (xx.node yy)) tR).cost
        = (mergeSib a b (xx.node yy)).weight + (mergeSib a b (xx.node yy)).cost
            + tR.weight + tR.cost := rfl
    have ec2 : (HTree.node (xx.node yy) tR).cost
        = (xx.node yy).weight + (xx.node yy).cost + tR.weight + tR.cost := rfl
    have ef : ∀ y : α, (HTree.node (xx.node yy) tR).freqS y
        = (xx.node yy).freqS y + tR.freqS y := fun y => rfl
    rw [ec1, ec2, ef, ef]
    omega
  | right h ih =>
    rename_i tL tR
    intro hc
    obtain ⟨hd, hc1, hc2⟩ := hc
    obtain ⟨xx, yy, rfl⟩ := SP_node h
    have has : a ∉ _ := fun hh => not_mem_of_inter_empty hd hh (SP_mem h).1
    have hbs : b ∉ _ := fun hh => not_mem_of_inter_empty hd hh (SP_mem h).2
    rw [mergeSib_node_right, mergeSib_of_not_mem a b _ has]
    have hza : tL.freqS a = 0 := freqS_eq_zero_of_not_mem _ a has
    have hzb : tL.freqS b = 0 := freqS_eq_zero_of_not_mem _ b hbs
    have hw := weight_mergeSib a b (xx.node yy)
    have hkey := ih hc2
    have ec1 : (HTree.node tL (mergeSib a b (xx.node yy))).cost
        = tL.weight + tL.cost + (mergeSib a b (xx.node yy)).weight
            + (mergeSib a b (xx.node yy)).cost := rfl
    have ec2 : (HTree.node tL (xx.node yy)).cost
        = tL.weight + tL.cost + (xx.node yy).weight + (xx.node yy).cost := rfl
    have ef : ∀ y : α, (HTree.node tL (xx.node yy)).freqS y
        = tL.freqS y + (xx.node yy).freqS y := fun y => rfl
    rw [ec1, ec2, ef, ef]
    omega

/-- A tree not containing `a` is unchanged by substitution at `a`. -/
theorem substS_of_not_mem {α : Type} [DecidableEq α] (a : α) (z : HTree α)
    (t : HTree α) (h : a ∉ t.syms) : substS a z t = t := by
  induction t with
  | leaf w c =>
    have hca : ¬c = a := fun hh => h (by simp [HTree.syms, hh])
    simp [substS, hca]
  | node t1 t2 ih1 ih2 =>
    have h1 : a ∉ t1.syms := fun hh => h (by simp [HTree.syms, Finset.mem_union, hh])
    have h2 : a ∉ t2.syms := fun hh => h (by simp [HTree.syms, Finset.mem_union, hh])
    simp [substS, ih1 h1, ih2 h2]

/-- The alphabet after substituting tree `z` for the leaf at `a`. -/
theorem syms_substS {α : Type} [DecidableEq α] (a : α) (z : HTree α) (t : HTree α)
    (hc : t.consistent) (ha : a ∈ t.syms) :
    (substS a z t).syms = (t.syms.erase a) ∪ z.syms := by
  induction t with
  | leaf w c =>
    have hca : c = a := by
      have := ha
      simp only [HTree.syms, Finset.mem_singleton] at this
      exact this.symm
    simp [substS, hca, HTree.syms]
  | node t1 t2 ih1 ih2 =>
    obtain ⟨hd, hc1, hc2⟩ := hc
    rw [show a ∈ (HTree.node t1 t2).syms ↔ a ∈ t1.syms ∨ a ∈ t2.syms by
      simp [HTree.syms]] at ha
    rcases ha with ha | ha
    · have ha2 : a ∉ t2.syms := not_mem_of_inter_empty hd ha
      show (substS a z t1).syms ∪ (substS a z t2).syms = _
      rw [ih1 hc1 ha, substS_of_not_mem a z t2 ha2]
      ext y
      simp only [HTree.syms, Finset.mem_union, Finset.mem_erase]
      constructor
      · rintro ((⟨hy, m⟩ | m) | m)
        · exact Or.inl ⟨hy, Or.inl m⟩
        · exact Or.inr m
        · exact Or.inl ⟨fun hh => ha2 (hh ▸ m), Or.inr m⟩
      · rintro (⟨hy, m | m⟩ | m)
        · exact Or.inl (Or.inl ⟨hy, m⟩)
        · exact Or.inr m
        · exact Or.inl (Or.inr m)
    · have ha1 : a ∉ t1.syms := fun hh => not_mem_of_inter_empty hd hh ha
      show (substS a z t1).syms ∪ (substS a z t2).syms = _
      rw [ih2 hc2 ha, substS_of_not_mem a z t1 ha1]
      ext y
      simp only [HTree.syms, Finset.mem_union, Finset.mem_erase]
      constructor
      · rintro (m | (⟨hy, m⟩ | m))
        · exact Or.inl ⟨fun hh => ha1 (hh ▸ m), Or.inl m⟩
        · exact Or.inl ⟨hy, Or.inr m⟩
        · exact Or.inr m
      · rintro (⟨hy, m | m⟩ | m)
        · exact Or.inl m
        · exact Or.inr (Or.inl ⟨hy, m⟩)
        · exact Or.inr (Or.inr m)

/-- Substitution preserves consistency when the inserted alphabet is fresh
except possibly for `a` itself. -/
theorem consistent_substS {α : Type} [DecidableEq α] (a : α) (z : HTree α)
    (t : HTree α) (hc : t.consistent) (hz : z.consistent)
    (hfresh : ∀ x ∈ z.syms, x ∈ t.syms → x = a) : (substS a z t).consistent := by
  induction t with
  | leaf w c =>
    by_cases hca : c = a
    · simpa [substS, hca] using hz
    · simpa [substS, hca] using trivial
  | node t1 t2 ih1 ih2 =>
    obtain ⟨hd, hc1, hc2⟩ := hc
    have hf1 : ∀ x ∈ z.syms, x ∈ t1.syms → x = a := fun x hx hm =>
      hfresh x hx (by simp [HTree.syms, Finset.mem_union, hm])
    have hf2 : ∀ x ∈ z.syms, x ∈ t2.syms → x = a := fun x hx hm =>
      hfresh x hx (by simp [HTree.syms, Finset.mem_union, hm])
    show (HTree.node (substS a z t1) (substS a z t2)).consistent
    by_cases ha1 : a ∈ t1.syms
    · have ha2 : a ∉ t2.syms := not_mem_of_inter_empty hd ha1
      refine ⟨?_, ih1 hc1 hf1, by rw [substS_of_not_mem a z t2 ha2]; exact hc2⟩
      rw [substS_of_not_mem a z t2 ha2, syms_substS a z t1 hc1 ha1,
        Finset.eq_empty_iff_forall_not_mem]
      intro y hy
      rw [Finset.mem_inter, Finset.mem_union, Finset.mem_erase] at hy
      rcases hy with ⟨⟨hne, hm1⟩ | hzmem, hm2⟩
      · exact not_mem_of_inter_empty hd hm1 hm2
      · exact ha2 ((hf2 y hzmem hm2) ▸ hm2)
    · by_cases ha2 : a ∈ t2.syms
      · refine ⟨?_, by rw [substS_of_not_mem a z t1 ha1]; exact hc1, ih2 hc2 hf2⟩
        rw [substS_of_not_mem a z t1 ha1, syms_substS a z t2 hc2 ha2,
          Finset.eq_empty_iff_forall_not_mem]
        intro y hy
        rw [Finset.mem_inter, Finset.mem_union, Finset.mem_erase] at hy
        rcases hy with ⟨hm1, ⟨hne, hm2⟩ | hzmem⟩
        · exact not_mem_of_inter_empty hd hm1 hm2
        · exact ha1 ((hf1 y hzmem hm1) ▸ hm1)
      · rw [substS_of_not_mem a z t1 ha1, substS_of_not_mem a z t2 ha2]
        exact ⟨hd, hc1, hc2⟩

/-- Substituting a tree of the same weight as the removed leaf preserves the
total weight. -/
theorem weight_substS {α : Type} [DecidableEq α] (a : α) (z : HTree α) :
    ∀ (t : HTree α), t.consistent → a ∈ t.syms → z.weight = t.freqS a →
      (substS a z t).weight = t.weight := by
  intro t
  induction t with
  | leaf w c =>
    intro _ ha hz
    have hca : c = a := by
      have := ha
      simp only [HTree.syms, Finset.mem_singleton] at this
      exact this.symm
    have h1 : substS a z (HTree.leaf w c) = z := by simp [substS, hca]
    rw [h1, hz]
    simp [HTree.freqS, HTree.weight, hca.symm]
  | node t1 t2 ih1 ih2 =>
    intro hc ha hz
    obtain ⟨hd, hc1, hc2⟩ := hc
    have e2 : (HTree.node t1 t2).freqS a = t1.freqS a + t2.freqS a := rfl
    show (substS a z t1).weight + (substS a z t2).weight = t1.weight + t2.weight
    rw [show a ∈ (HTree.node t1 t2).syms ↔ a ∈ t1.syms ∨ a ∈ t2.syms by
      simp [HTree.syms]] at ha
    rcases ha with ha | ha
    · have ha2 : a ∉ t2.syms := not_mem_of_inter_empty hd ha
      have hz2 : t2.freqS a = 0 := freqS_eq_zero_of_not_mem _ _ ha2
      rw [substS_of_not_mem a z t2 ha2,
        ih1 hc1 ha (by rw [hz, e2, hz2]; omega)]
    · have ha1 : a ∉ t1.syms := fun hh => not_mem_of_inter_empty hd hh ha
      have hz1 : t1.freqS a = 0 := freqS_eq_zero_of_not_mem _ _ ha1
      rw [substS_of_not_mem a z t1 ha1,
        ih2 hc2 ha (by rw [hz, e2, hz1]; omega)]

/-- Substituting a tree of matching weight adds exactly its cost. -/
theorem cost_substS {α : Type} [DecidableEq α] (a : α) (z : HTree α) :
    ∀ (t : HTree α), t.consistent → a ∈ t.syms → z.weight = t.freqS a →
      (substS a z t).cost = t.cost + z.cost := by
  intro t
  induction t with
  | leaf w c =>
    intro _ ha hz
    have hca : c = a := by
      have := ha
      simp only [HTree.syms, Finset.mem_singleton] at this
      exact this.symm
    have h1 : substS a z (HTree.leaf w c) = z := by simp [substS, hca]
    rw [h1]
    simp [HTree.cost]
  | node t1 t2 ih1 ih2 =>
    intro hc ha hz
    obtain ⟨hd, hc1, hc2⟩ := hc
    have e2 : (HTree.node t1 t2).freqS a = t1.freqS a + t2.freqS a := rfl
    show (substS a z t1).weight + (substS a z t1).cost + (substS a z t2).weight
        + (substS a z t2).cost = t1.weight + t1.cost + t2.weight + t2.cost + z.cost
    rw [show a ∈ (HTree.node t1 t2).syms ↔ a ∈ t1.syms ∨ a ∈ t2.syms by
      simp [HTree.syms]] at ha
    rcases ha with ha | ha
    · have ha2 : a ∉ t2.syms := not_mem_of_inter_empty hd ha
      have hz2 : t2.freqS a = 0 := freqS_eq_zero_of_not_mem _ _ ha2
      have hz1 : z.weight = t1.freqS a := by rw [hz, e2, hz2]; omega
      rw [substS_of_not_mem a z t2 ha2, ih1 hc1 ha hz1, weight_substS a z t1 hc1 ha hz1]
      omega
    · have ha1 : a ∉ t1.syms := fun hh => not_mem_of_inter_empty hd hh ha
      have hz1 : t1.freqS a = 0 := freqS_eq_zero_of_not_mem _ _ ha1
      have hz2 : z.weight = t2.freqS a := by rw [hz, e2, hz1]; omega
      rw [substS_of_not_mem a z t1 ha1, ih2 hc2 ha hz2, weight_substS a z t2 hc2 ha hz2]
      omega

/-- Frequencies after substitution: `a`'s weight is replaced by the inserted
tree's own frequency assignment. -/
theorem freqS_substS {α : Type} [DecidableEq α] (a : α) (z : HTree α) :
    ∀ (t : HTree α), t.consistent →
      ∀ x, (substS a z t).freqS x + (if x = a then t.freqS a else 0)
        = t.freqS x + (if a ∈ t.syms then z.freqS x else 0) := by
  intro t
  induction t with
  | leaf w c =>
    intro _ x
    by_cases hca : c = a
    · have h1 : substS a z (HTree.leaf w c) = z := by simp [substS, hca]
      have h2 : (HTree.leaf w c).freqS a = w := by
        simp [HTree.freqS, hca.symm]
      have h3 : a ∈ (HTree.leaf w c).syms := by simp [HTree.syms, hca.symm]
      rw [h1, h2, if_pos h3]
      by_cases hx : x = a
      · rw [if_pos hx, show (HTree.leaf w c).freqS x = w by
          simp [HTree.freqS, hx.trans hca.symm]]
        omega
      · have hxc : ¬x = c := fun hh => hx (hh.trans hca)
        rw [if_neg hx, show (HTree.leaf w c).freqS x = 0 by simp [HTree.freqS, hxc]]
        omega
    · have h1 : substS a z (HTree.leaf w c) = .leaf w c := by simp [substS, hca]
      have hac : ¬a = c := fun hh => hca hh.symm
      have h2 : (HTree.leaf w c).freqS a = 0 := by
        simp [HTree.freqS, hac]
      have h3 : a ∉ (HTree.leaf w c).syms := by
        simp only [HTree.syms, Finset.mem_singleton]
        exact fun hh => hca hh.symm
      rw [h1, h2, if_neg h3]
      split_ifs <;> omega
  | node t1 t2 ih1 ih2 =>
    intro hc x
    obtain ⟨hd, hc1, hc2⟩ := hc
    have e1 : ∀ y : α, (HTree.node (substS a z t1) (substS a z t2)).freqS y
        = (substS a z t1).freqS y + (substS a z t2).freqS y := fun y => rfl
    have e2 : ∀ y : α, (HTree.node t1 t2).freqS y = t1.freqS y + t2.freqS y :=
      fun y => rfl
    have k1 := ih1 hc1 x
    have k2 := ih2 hc2 x
    show (HTree.node (substS a z t1) (substS a z t2)).freqS x
        + (if x = a then (HTree.node t1 t2).freqS a else 0) = _
    rw [e1, e2, e2]
    by_cases hm1 : a ∈ t1.syms
    · have hm2 : a ∉ t2.syms := not_mem_of_inter_empty hd hm1
      have hz2 : t2.freqS a = 0 := freqS_eq_zero_of_not_mem _ _ hm2
      have hsub2 : substS a z t2 = t2 := substS_of_not_mem a z t2 hm2
      have hmem : a ∈ (HTree.node t1 t2).syms := by
        simp [HTree.syms, Finset.mem_union, hm1]
      rw [hsub2, if_pos hmem]
      rw [if_pos hm1] at k1
      rw [if_neg hm2] at k2
      split_ifs at k1 k2 ⊢ <;> omega
    · by_cases hm2 : a ∈ t2.syms
      · have hz1 : t1.freqS a = 0 := freqS_eq_zero_of_not_mem _ _ hm1
        have hsub1 : substS a z t1 = t1 := substS_of_not_mem a z t1 hm1
        have hmem : a ∈ (HTree.node t1 t2).syms := by
          simp [HTree.syms, Finset.mem_union, hm2]
        rw [hsub1, if_pos hmem]
        rw [if_neg hm1] at k1
        rw [if_pos hm2] at k2
        split_ifs at k1 k2 ⊢ <;> omega
      · have hz1 : t1.freqS a = 0 := freqS_eq_zero_of_not_mem _ _ hm1
        have hz2 : t2.freqS a = 0 := freqS_eq_zero_of_not_mem _ _ hm2
        have hmem : a ∉ (HTree.node t1 t2).syms := by
          simp [HTree.syms, Finset.mem_union, hm1, hm2]
        rw [substS_of_not_mem a z t1 hm1, substS_of_not_mem a z t2 hm2, if_neg hmem]
        rw [if_neg hm1] at k1
        rw [if_neg hm2] at k2
        split_ifs at k1 k2 ⊢ <;> omega


/-- Moving the two minimal symbols onto a deepest sibling pair: the result is
consistent, has the same alphabet and frequencies, costs no more, and holds
`a` and `b` as siblings. -/
theorem swapFourSyms_valid {α : Type} [DecidableEq α] (u : HTree α) (a b c d : α)
    (hc : u.consistent) (hab : a ≠ b) (hcd : c ≠ d) (hsp : SP c d u)
    (ham : a ∈ u.syms) (hbm : b ∈ u.syms)
    (hdc : u.depthS c = u.height) (hdd : u.depthS d = u.height)
    (hfa : ∀ x ∈ u.syms, x ≠ a → u.freqS a ≤ u.freqS x)
    (hfb : ∀ x ∈ u.syms, x ≠ a → x ≠ b → u.freqS b ≤ u.freqS x) :
    (swapFourSyms u a b c d).consistent ∧ (swapFourSyms u a b c d).syms = u.syms ∧
      (swapFourSyms u a b c d).freqS = u.freqS ∧
      (swapFourSyms u a b c d).cost ≤ u.cost ∧ SP a b (swapFourSyms u a b c d) := by
  have hcm := (SP_mem hsp).1
  have hdm := (SP_mem hsp).2
  by_cases hac : a = c
  · by_cases hbd : b = d
    · have heq : swapFourSyms u a b c d = u := by
        simp only [swapFourSyms]
        rw [if_pos hac, if_pos hbd]
      rw [heq]
      exact ⟨hc, rfl, rfl, le_refl _, by rw [hac, hbd]; exact hsp⟩
    · have heq : swapFourSyms u a b c d
          = swapLeaves (u.freqS b) b (u.freqS d) d u := by
        simp only [swapFourSyms]
        rw [if_pos hac, if_neg hbd]
      rw [heq]
      have hda : d ≠ a := fun h => hcd (h.trans hac).symm
      have hdb : d ≠ b := fun h => hbd h.symm
      have hbd' : b ≠ d := hbd
      obtain ⟨hcons, hsyms, hfreq, hcost⟩ := swapLeaves_valid u b d hc hbd' hbm hdm
      have hle : u.freqS b * u.depthS d + u.freqS d * u.depthS b
          ≤ u.freqS b * u.depthS b + u.freqS d * u.depthS d :=
        mul_rearrange_le (hfb d hdm hda hdb)
          (by rw [hdd]; exact depthS_le_height u b)
      refine ⟨hcons, hsyms, hfreq, by linarith [hcost, hle], ?_⟩
      have hsp2 := SP_swapLeaves hsp (u.freqS b) b (u.freqS d) d
      have hcb : ¬c = b := fun h => hab (hac.trans h)
      rw [if_neg hcb, if_neg hcd, if_neg (fun h => hdb h), if_pos rfl] at hsp2
      rw [← hac] at hsp2
      exact hsp2
  · by_cases had : a = d
    · by_cases hbc : b = c
      · have heq : swapFourSyms u a b c d = u := by
          simp only [swapFourSyms]
          rw [if_neg hac, if_pos had, if_pos hbc]
        rw [heq]
        exact ⟨hc, rfl, rfl, le_refl _, SP_symm (by rw [hbc, had]; exact hsp)⟩
      · have heq : swapFourSyms u a b c d
            = swapLeaves (u.freqS b) b (u.freqS c) c u := by
          simp only [swapFourSyms]
          rw [if_neg hac, if_pos had, if_neg hbc]
        rw [heq]
        have hca : c ≠ a := fun h => hcd (h.trans had)
        have hcb : c ≠ b := fun h => hbc h.symm
        obtain ⟨hcons, hsyms, hfreq, hcost⟩ := swapLeaves_valid u b c hc hbc hbm hcm
        have hle : u.freqS b * u.depthS c + u.freqS c * u.depthS b
            ≤ u.freqS b * u.depthS b + u.freqS c * u.depthS c :=
          mul_rearrange_le (hfb c hcm hca hcb)
            (by rw [hdc]; exact depthS_le_height u b)
        refine ⟨hcons, hsyms, hfreq, by linarith [hcost, hle], ?_⟩
        have hsp2 := SP_swapLeaves hsp (u.freqS b) b (u.freqS c) c
        have hdb : ¬d = b := fun h => hab (had.trans h)
        have hdc' : ¬d = c := fun h => hcd h.symm
        rw [if_neg hcb, if_pos rfl] at hsp2
        rw [if_neg hdb, if_neg hdc'] at hsp2
        rw [← had] at hsp2
        exact SP_symm hsp2
    · by_cases hbc : b = c
      · have heq : swapFourSyms u a b c d
            = swapLeaves (u.freqS a) a (u.freqS d) d u := by
          simp only [swapFourSyms]
          rw [if_neg hac, if_neg had, if_pos hbc]
        rw [heq]
        have hda : ¬d = a := fun h => had h.symm
        have hca : ¬c = a := fun h => hac h.symm
        obtain ⟨hcons, hsyms, hfreq, hcost⟩ := swapLeaves_valid u a d hc had ham hdm
        have hle : u.freqS a * u.depthS d + u.freqS d * u.depthS a
            ≤ u.freqS a * u.depthS a + u.freqS d * u.depthS d :=
          mul_rearrange_le (hfa d hdm hda)
            (by rw [hdd]; exact depthS_le_height u a)
        refine ⟨hcons, hsyms, hfreq, by linarith [hcost, hle], ?_⟩
        have hsp2 := SP_swapLeaves hsp (u.freqS a) a (u.freqS d) d
        rw [if_neg hca, if_neg hcd, if_neg hda, if_pos rfl] at hsp2
        rw [← hbc] at hsp2
        exact SP_symm hsp2
      · by_cases hbd : b = d
        · have heq : swapFourSyms u a b c d
              = swapLeaves (u.freqS a) a (u.freqS c) c u := by
            simp only [swapFourSyms]
            rw [if_neg hac, if_neg had, if_neg hbc, if_pos hbd]
          rw [heq]
          have hca : ¬c = a := fun h => hac h.symm
          have hda : ¬d = a := fun h => had h.symm
          have hdc' : ¬d = c := fun h => hcd h.symm
          obtain ⟨hcons, hsyms, hfreq, hcost⟩ := swapLeaves_valid u a c hc hac ham hcm
          have hle : u.freqS a * u.depthS c + u.freqS c * u.depthS a
              ≤ u.freqS a * u.depthS a + u.freqS c * u.depthS c :=
            mul_rearrange_le (hfa c hcm hca)
              (by rw [hdc]; exact depthS_le_height u a)
          refine ⟨hcons, hsyms, hfreq, by linarith [hcost, hle], ?_⟩
          have hsp2 := SP_swapLeaves hsp (u.freqS a) a (u.freqS c) c
          rw [if_neg hca, if_pos rfl] at hsp2
          rw [if_neg hda, if_neg hdc'] at hsp2
          rw [← hbd] at hsp2
          exact hsp2
        · have heq : swapFourSyms u a b c d
              = swapLeaves ((swapLeaves (u.freqS a) a (u.freqS c) c u).freqS b) b
                  ((swapLeaves (u.freqS a) a (u.freqS c) c u).freqS d) d
                  (swapLeaves (u.freqS a) a (u.freqS c) c u) := by
            simp only [swapFourSyms]
            rw [if_neg hac, if_neg had, if_neg hbc, if_neg hbd]
          rw [heq]
          have hca : ¬c = a := fun h => hac h.symm
          have hda : ¬d = a := fun h => had h.symm
          have hdc' : ¬d = c := fun h => hcd h.symm
          have hdb : ¬d = b := fun h => hbd h.symm
          obtain ⟨hcons1, hsyms1, hfreq1, hcost1⟩ :=
            swapLeaves_valid u a c hc hac ham hcm
          set u1 := swapLeaves (u.freqS a) a (u.freqS c) c u with hu1
          have hbm1 : b ∈ u1.syms := by rw [hsyms1]; exact hbm
          have hdm1 : d ∈ u1.syms := by rw [hsyms1]; exact hdm
          obtain ⟨hcons2, hsyms2, hfreq2, hcost2⟩ :=
            swapLeaves_valid u1 b d hcons1 hbd hbm1 hdm1
          have hfb1 : u1.freqS b = u.freqS b := congrFun hfreq1 b
          have hfd1 : u1.freqS d = u.freqS d := congrFun hfreq1 d
          have hdb1 : u1.depthS b = u.depthS b :=
            depthS_swapLeaves_other _ _ _ _ hac u b (fun h => hab h.symm) hbc
          have hdd1 : u1.depthS d = u.depthS d :=
            depthS_swapLeaves_other _ _ _ _ hac u d hda hdc'
          rw [hfb1, hfd1] at hcons2 hsyms2 hfreq2 hcost2 ⊢
          rw [hdb1, hdd1] at hcost2
          have hle1 : u.freqS a * u.depthS c + u.freqS c * u.depthS a
              ≤ u.freqS a * u.depthS a + u.freqS c * u.depthS c :=
            mul_rearrange_le (hfa c hcm hca)
              (by rw [hdc]; exact depthS_le_height u a)
          have hle2 : u.freqS b * u.depthS d + u.freqS d * u.depthS b
              ≤ u.freqS b * u.depthS b + u.freqS d * u.depthS d :=
            mul_rearrange_le (hfb d hdm hda hdb)
              (by rw [hdd]; exact depthS_le_height u b)
          refine ⟨hcons2, hsyms2.trans hsyms1, hfreq2.trans hfreq1,
            by linarith [hcost1, hcost2, hle1, hle2], ?_⟩
          have hsp1 := SP_swapLeaves hsp (u.freqS a) a (u.freqS c) c
          rw [if_neg hca, if_pos rfl] at hsp1
          rw [if_neg hda, if_neg hdc'] at hsp1
          have hsp2 := SP_swapLeaves hsp1 (u.freqS b) b (u.freqS d) d
          rw [if_neg hab, if_neg had] at hsp2
          rw [if_neg hdb, if_pos rfl] at hsp2
          exact hsp2

/-- The key step of Huffman's optimality argument: splitting the leaf of a
minimal combined symbol of an optimum tree into a sibling pair of the two
minimal symbols yields an optimum tree for the enlarged alphabet. -/
theorem optimum_splitLeaf {α : Type} [DecidableEq α] (t : HTree α) (a b : α)
    (fa fb : Nat) (hc : t.consistent) (hopt : t.optimum) (ham : a ∈ t.syms)
    (hbm : b ∉ t.syms) (hab : a ≠ b) (hfa : t.freqS a = fa + fb) (hfab : fa ≤ fb)
    (hmin : ∀ x ∈ t.syms, x ≠ a → fb ≤ t.freqS x) :
    (substS a (HTree.node (.leaf fa a) (.leaf fb b)) t).optimum := by
  intro u hu hsyms hfreq
  set z : HTree α := HTree.node (.leaf fa a) (.leaf fb b) with hz
  have hzw : z.weight = t.freqS a := by rw [hfa]; rfl
  have hzcost : z.cost = fa + fb := rfl
  have hzf : ∀ x, z.freqS x = (if x = a then fa else 0) + (if x = b then fb else 0) :=
    fun x => rfl
  have hba : ¬b = a := fun h => hab h.symm
  -- membership in the split tree
  have hmem : ∀ x, x ∈ (substS a z t).syms ↔ x ∈ t.syms ∨ x = b := by
    intro x
    rw [syms_substS a z t hc ham]
    simp only [Finset.mem_union, Finset.mem_erase, HTree.syms, Finset.mem_singleton]
    constructor
    · rintro (⟨-, h⟩ | (h | h))
      · exact Or.inl h
      · exact Or.inl (h ▸ ham)
      · exact Or.inr h
    · rintro (h | h)
      · by_cases hxa : x = a
        · exact Or.inr (Or.inl hxa)
        · exact Or.inl ⟨hxa, h⟩
      · exact Or.inr (Or.inr h)
  -- frequencies of the split tree
  have hf := freqS_substS a z t hc
  have hfa' : (substS a z t).freqS a = fa := by
    have := hf a
    rw [if_pos rfl, if_pos ham, hzf a, if_pos rfl, if_neg hab] at this
    omega
  have hfb' : (substS a z t).freqS b = fb := by
    have := hf b
    have htb : t.freqS b = 0 := freqS_eq_zero_of_not_mem t b hbm
    rw [if_neg hba, if_pos ham, hzf b, if_neg hba, if_pos rfl, htb] at this
    omega
  have hfx' : ∀ x, x ≠ a → x ≠ b → (substS a z t).freqS x = t.freqS x := by
    intro x hxa hxb
    have := hf x
    rw [if_neg hxa, if_pos ham, hzf x, if_neg hxa, if_neg hxb] at this
    omega
  -- cost of the split tree
  have hcost' : (substS a z t).cost = t.cost + (fa + fb) := by
    rw [cost_substS a z t hc ham hzw, hzcost]
  -- the competitor u contains both symbols and is internal
  have hau : a ∈ u.syms := by rw [← hsyms, hmem]; exact Or.inl ham
  have hbu : b ∈ u.syms := by rw [← hsyms, hmem]; exact Or.inr rfl
  have hnode : ∃ x y, u = HTree.node x y := by
    cases u with
    | leaf w c =>
      exfalso
      simp only [HTree.syms, Finset.mem_singleton] at hau hbu
      exact hab (hau.trans hbu.symm)
    | node x y => exact ⟨x, y, rfl⟩
  obtain ⟨c, d, hsp, hcd, hdpc, hdpd⟩ := exists_max_sib u hu hnode
  -- u's frequencies agree with the split tree's
  have hfua : u.freqS a = fa := by rw [← congrFun hfreq a]; exact hfa'
  have hfub : u.freqS b = fb := by rw [← congrFun hfreq b]; exact hfb'
  have hfux : ∀ x, x ≠ a → x ≠ b → u.freqS x = t.freqS x := by
    intro x hxa hxb
    rw [← congrFun hfreq x]
    exact hfx' x hxa hxb
  have hmemu : ∀ x, x ∈ u.syms ↔ x ∈ t.syms ∨ x = b := by
    intro x
    rw [← hsyms]
    exact hmem x
  have hfa2 : ∀ x ∈ u.syms, x ≠ a → u.freqS a ≤ u.freqS x := by
    intro x hx hxa
    rw [hfua]
    by_cases hxb : x = b
    · rw [hxb, hfub]; exact hfab
    · rw [hfux x hxa hxb]
      rcases (hmemu x).mp hx with h | h
      · exact hfab.trans (hmin x h hxa)
      · exact absurd h hxb
  have hfb2 : ∀ x ∈ u.syms, x ≠ a → x ≠ b → u.freqS b ≤ u.freqS x := by
    intro x hx hxa hxb
    rw [hfub, hfux x hxa hxb]
    rcases (hmemu x).mp hx with h | h
    · exact hmin x h hxa
    · exact absurd h hxb
  obtain ⟨hcons2, hsyms2, hfreq2, hcost2, hsp2⟩ :=
    swapFourSyms_valid u a b c d hu hab hcd hsp hau hbu hdpc hdpd hfa2 hfb2
  set u2 := swapFourSyms u a b c d with hu2
  -- merge the now-sibling pair a, b
  have hcons3 := consistent_mergeSib hab hsp2 hcons2
  have hsyms3 : (mergeSib a b u2).syms = t.syms := by
    rw [syms_mergeSib hab hsp2 hcons2, hsyms2]
    ext x
    rw [Finset.mem_erase, hmemu x]
    constructor
    · rintro ⟨hxb, h | h⟩
      · exact h
      · exact absurd h hxb
    · intro h
      exact ⟨fun hh => hbm (hh ▸ h), Or.inl h⟩
  have hfm := freqS_mergeSib hab hsp2 hcons2
  have hfreq3 : t.freqS = (mergeSib a b u2).freqS := by
    funext x
    have := hfm x
    have h2b : u2.freqS b = fb := by rw [congrFun hfreq2 b]; exact hfub
    have h2a : u2.freqS a = fa := by rw [congrFun hfreq2 a]; exact hfua
    by_cases hxa : x = a
    · rw [hxa]
      rw [if_neg (hxa ▸ hab : ¬x = b), if_pos hxa, h2b, hxa] at this
      rw [congrFun hfreq2 a, hfua] at this
      omega
    · by_cases hxb : x = b
      · rw [hxb, freqS_eq_zero_of_not_mem t b hbm]
        rw [if_pos hxb, if_neg hxa, h2b, hxb] at this
        rw [congrFun hfreq2 b, hfub] at this
        omega
      · rw [if_neg hxb, if_neg hxa] at this
        rw [congrFun hfreq2 x, hfux x hxa hxb] at this
        omega
  -- optimality of t against the merged competitor
  have hopt3 := hopt (mergeSib a b u2) hcons3 hsyms3.symm hfreq3
  have hcm := cost_mergeSib hab hsp2 hcons2
  have h2a : u2.freqS a = fa := by rw [congrFun hfreq2 a]; exact hfua
  have h2b : u2.freqS b = fb := by rw [congrFun hfreq2 b]; exact hfub
  rw [h2a, h2b] at hcm
  rw [hcost']
  omega

/-- A member of a list of naturals is at most the sum. -/
theorem mem_le_sum {l : List Nat} {x : Nat} (hx : x ∈ l) : x ≤ l.sum := by
  induction l with
  | nil => cases hx
  | cons y ys ih =>
    rcases List.mem_cons.mp hx with rfl | hx
    · exact Nat.le_add_right _ _
    · exact (ih hx).trans (Nat.le_add_left _ _)

/-- The final tree of a run carries the summed frequencies of the pool. -/
theorem runH_freqS {α : Type} [DecidableEq α] {M : List (HTree α)} {t : HTree α}
    (h : RunH M t) (x : α) : t.freqS x = (M.map fun u => u.freqS x).sum := by
  induction h with
  | single t => simp
  | step M p q rest t hperm hp hq hrun ih =>
    rw [ih, (hperm.map fun u => u.freqS x).sum_eq]
    simp only [List.map_cons, List.sum_cons]
    have hn : (HTree.node p q).freqS x = p.freqS x + q.freqS x := rfl
    rw [hn]
    omega

/-- The final tree of a run carries exactly the pool's symbols. -/
theorem runH_syms {α : Type} [DecidableEq α] {M : List (HTree α)} {t : HTree α}
    (h : RunH M t) (x : α) : x ∈ t.syms ↔ ∃ u ∈ M, x ∈ u.syms := by
  induction h with
  | single t => simp
  | step M p q rest t hperm hp hq hrun ih =>
    rw [ih]
    constructor
    · rintro ⟨u, hu, hx⟩
      rcases List.mem_cons.mp hu with rfl | hu
      · have : x ∈ p.syms ∨ x ∈ q.syms := by
          simpa [HTree.syms, Finset.mem_union] using hx
        rcases this with hx | hx
        · exact ⟨p, hperm.mem_iff.mpr (by simp), hx⟩
        · exact ⟨q, hperm.mem_iff.mpr (by simp), hx⟩
      · exact ⟨u, hperm.mem_iff.mpr (by simp [hu]), hx⟩
    · rintro ⟨u, hu, hx⟩
      rcases List.mem_cons.mp (hperm.mem_iff.mp hu) with rfl | hu2
      · exact ⟨HTree.node u q, by simp,
          by simp [HTree.syms, Finset.mem_union, hx]⟩
      · rcases List.mem_cons.mp hu2 with rfl | hu3
        · exact ⟨HTree.node p u, by simp,
            by simp [HTree.syms, Finset.mem_union, hx]⟩
        · exact ⟨u, by simp [hu3], hx⟩

/-- A permutation of a mapped list comes from a permutation of the
underlying list. -/
theorem perm_map_inverse {α β : Type} (f : α → β) :
    ∀ {A m : List β}, A.Perm m → ∀ (l : List α), A = l.map f →
      ∃ l', l.Perm l' ∧ l'.map f = m := by
  intro A m h
  induction h with
  | nil =>
    intro l hl
    cases l with
    | nil => exact ⟨[], List.Perm.refl _, rfl⟩
    | cons x xs => exact absurd hl.symm (by simp)
  | cons x h ih =>
    intro l hl
    cases l with
    | nil => exact absurd hl (by simp)
    | cons y ys =>
      simp only [List.map_cons, List.cons.injEq] at hl
      obtain ⟨h1, h2⟩ := hl
      obtain ⟨l₁, hp1, hm1⟩ := ih ys h2
      exact ⟨y :: l₁, hp1.cons y, by simp [hm1, h1.symm]⟩
  | swap x y l =>
    intro l0 hl
    cases l0 with
    | nil => exact absurd hl (by simp)
    | cons u l1 =>
      cases l1 with
      | nil =>
        exfalso
        have := congrArg List.length hl
        simp at this
      | cons v l₂ =>
        simp only [List.map_cons, List.cons.injEq] at hl
        obtain ⟨h1, h2, h3⟩ := hl
        exact ⟨v :: u :: l₂, List.Perm.swap v u l₂, by simp [h1.symm, h2.symm, h3.symm]⟩
  | trans h₁ h₂ ih₁ ih₂ =>
    intro l hl
    obtain ⟨l₁, hp1, hm1⟩ := ih₁ l hl
    obtain ⟨l₂, hp2, hm2⟩ := ih₂ l₁ hm1.symm
    exact ⟨l₂, hp1.trans hp2, hm2⟩

/-- Inverse simulation: a run on a pool whose elements arise by substituting
a fixed equal-weight tree for the leaf `a` projects back to a run on the
collapsed pool. -/
theorem runH_map_inverse {α : Type} [DecidableEq α] (a : α) (z : HTree α) :
    ∀ {N : List (HTree α)} {t : HTree α}, RunH N t →
      ∀ (M : List (HTree α)), N = M.map (substS a z) →
        (∀ u ∈ M, (substS a z u).weight = u.weight) →
        ∃ t', RunH M t' ∧ t = substS a z t' := by
  intro N t h
  induction h with
  | single t =>
    intro M hM hw
    cases M with
    | nil => exact absurd hM (by simp)
    | cons u us =>
      cases us with
      | nil =>
        simp only [List.map_cons, List.map_nil, List.cons.injEq] at hM
        exact ⟨u, RunH.single u, hM.1⟩
      | cons v vs => exact absurd (congrArg List.length hM) (by simp)
  | step N p q rest t hperm hp hq hrun ih =>
    intro M hM hw
    obtain ⟨M₁, hpM, hmM⟩ := perm_map_inverse (substS a z) hperm M hM
    cases M₁ with
    | nil => exact absurd (congrArg List.length hmM) (by simp)
    | cons u M₂ =>
      cases M₂ with
      | nil => exact absurd (congrArg List.length hmM) (by simp)
      | cons v rest' =>
        simp only [List.map_cons, List.cons.injEq] at hmM
        obtain ⟨hfu, hfv, hfr⟩ := hmM
        have hw₁ : ∀ x ∈ u :: v :: rest', (substS a z x).weight = x.weight :=
          fun x hx => hw x (hpM.symm.mem_iff.mp hx)
        have hu_min : ∀ x ∈ v :: rest', u.weight ≤ x.weight := by
          intro x hx
          rw [← hw₁ u (by simp), ← hw₁ x (by simp [hx]), hfu]
          apply hp
          rcases List.mem_cons.mp hx with rfl | hx
          · rw [hfv]; exact List.mem_cons_self _ _
          · exact List.mem_cons_of_mem _ (hfr ▸ List.mem_map_of_mem _ hx)
        have hv_min : ∀ x ∈ rest', v.weight ≤ x.weight := by
          intro x hx
          rw [← hw₁ v (by simp), ← hw₁ x (by simp [hx]), hfv]
          exact hq _ (hfr ▸ List.mem_map_of_mem _ hx)
        have hfnode : substS a z (HTree.node u v)
            = HTree.node (substS a z u) (substS a z v) := rfl
        have hnext : HTree.node p q :: rest = (HTree.node u v :: rest').map (substS a z) := by
          simp only [List.map_cons, hfnode, hfu, hfv, hfr]
        have hw' : ∀ x ∈ HTree.node u v :: rest', (substS a z x).weight = x.weight := by
          intro x hx
          rcases List.mem_cons.mp hx with rfl | hx
          · rw [hfnode]
            have e1 : (HTree.node (substS a z u) (substS a z v)).weight
                = (substS a z u).weight + (substS a z v).weight := rfl
            have e2 : (HTree.node u v).weight = u.weight + v.weight := rfl
            rw [e1, e2, hw₁ u (by simp), hw₁ v (by simp)]
          · exact hw₁ x (by simp [hx])
        obtain ⟨t', hrun', hteq⟩ := ih (HTree.node u v :: rest') hnext hw'
        exact ⟨t', RunH.step M u v rest' t' hpM hu_min hv_min hrun', hteq⟩

/-- A minimum-merge run over disjoint single leaves produces a consistent
optimum tree. -/
theorem runH_optimum {α : Type} [DecidableEq α] :
    ∀ (n : Nat) (M : List (HTree α)) (t : HTree α), M.length ≤ n → RunH M t →
      (∀ u ∈ M, ∃ w s, u = HTree.leaf w s) →
      M.Pairwise (fun u v => u.syms ∩ v.syms = ∅) →
      t.consistent ∧ t.optimum := by
  intro n
  induction n with
  | zero =>
    intro M t hlen hrun hleaves hpw
    exfalso
    cases hrun with
    | single t => simp at hlen
    | step M p q rest t hperm hp hq hrun =>
      have := hperm.length_eq
      simp at this
      omega
  | succ n ih =>
    intro M t hlen hrun hleaves hpw
    cases hrun with
    | single t =>
      obtain ⟨w, s, rfl⟩ := hleaves t (by simp)
      exact ⟨trivial, fun u _ _ _ => Nat.zero_le u.cost⟩
    | step M p q rest t hperm hp hq hrun =>
      have hsymm : ∀ {x y : HTree α}, x.syms ∩ y.syms = ∅ → y.syms ∩ x.syms = ∅ :=
        fun {x y} h => by rw [Finset.inter_comm]; exact h
      have hpw' : (p :: q :: rest).Pairwise (fun u v => u.syms ∩ v.syms = ∅) :=
        (hperm.pairwise_iff hsymm).mp hpw
      have hleaves' : ∀ u ∈ p :: q :: rest, ∃ w s, u = HTree.leaf w s :=
        fun u hu => hleaves u (hperm.mem_iff.mpr hu)
      obtain ⟨fa, a, rfl⟩ := hleaves' p (by simp)
      obtain ⟨fb, b, rfl⟩ := hleaves' q (by simp)
      rw [List.pairwise_cons] at hpw'
      obtain ⟨hp_rest, hpw2⟩ := hpw'
      rw [List.pairwise_cons] at hpw2
      obtain ⟨hq_rest, hpw_rest⟩ := hpw2
      have hab : a ≠ b := by
        intro h
        have hq' := hp_rest (HTree.leaf fb b) (by simp)
        have hmem : a ∈ (HTree.leaf fa a).syms := by simp [HTree.syms]
        apply not_mem_of_inter_empty hq' hmem
        simp [HTree.syms, h]
      have ha_rest : ∀ r ∈ rest, a ∉ r.syms := fun r hr =>
        not_mem_of_inter_empty (hp_rest r (by simp [hr])) (by simp [HTree.syms])
      have hb_rest : ∀ r ∈ rest, b ∉ r.syms := fun r hr =>
        not_mem_of_inter_empty (hq_rest r hr) (by simp [HTree.syms])
      set z : HTree α := HTree.node (.leaf fa a) (.leaf fb b) with hz
      have hsubret : ∀ r ∈ rest, substS a z r = r := fun r hr =>
        substS_of_not_mem a z r (ha_rest r hr)
      have hmapM : z :: rest
          = (HTree.leaf (fa + fb) a :: rest).map (substS a z) := by
        simp only [List.map_cons]
        congr 1
        · simp [substS]
        · exact (List.map_congr_left hsubret).trans (List.map_id rest) |>.symm
      have hw : ∀ u ∈ HTree.leaf (fa + fb) a :: rest,
          (substS a z u).weight = u.weight := by
        intro u hu
        rcases List.mem_cons.mp hu with rfl | hu
        · rw [show substS a z (HTree.leaf (fa + fb) a) = z by simp [substS]]
          rfl
        · rw [hsubret u hu]
      obtain ⟨t', hrun', hteq⟩ :=
        runH_map_inverse a z hrun (HTree.leaf (fa + fb) a :: rest) hmapM hw
      have hlen'' : (HTree.leaf (fa + fb) a :: rest).length ≤ n := by
        have := hperm.length_eq
        simp at this
        simp
        omega
      have hleaves'' : ∀ u ∈ HTree.leaf (fa + fb) a :: rest,
          ∃ w s, u = HTree.leaf w s := by
        intro u hu
        rcases List.mem_cons.mp hu with rfl | hu
        · exact ⟨fa + fb, a, rfl⟩
        · exact hleaves' u (by simp [hu])
      have hpw'' : (HTree.leaf (fa + fb) a :: rest).Pairwise
          (fun u v => u.syms ∩ v.syms = ∅) := by
        rw [List.pairwise_cons]
        refine ⟨fun u hu => ?_, hpw_rest⟩
        have := hp_rest u (by simp [hu])
        simpa [HTree.syms] using this
      obtain ⟨hcons'', hopt''⟩ := ih _ t' hlen'' hrun' hleaves'' hpw''
      have ham : a ∈ t'.syms := (runH_syms hrun' a).mpr
        ⟨HTree.leaf (fa + fb) a, by simp, by simp [HTree.syms]⟩
      have hbm : b ∉ t'.syms := by
        rw [runH_syms hrun' b]
        rintro ⟨u, hu, hbu⟩
        rcases List.mem_cons.mp hu with rfl | hu
        · have : b = a := by simpa [HTree.syms] using hbu
          exact hab this.symm
        · exact hb_rest u hu hbu
      have hfa' : t'.freqS a = fa + fb := by
        rw [runH_freqS hrun' a]
        simp only [List.map_cons, List.sum_cons]
        have hz0 : (rest.map fun u => u.freqS a).sum = 0 := by
          apply List.sum_eq_zero
          intro x hx
          obtain ⟨r, hr, rfl⟩ := List.mem_map.mp hx
          exact freqS_eq_zero_of_not_mem r a (ha_rest r hr)
        rw [hz0]
        simp [HTree.freqS]
      have hfab : fa ≤ fb := by
        have := hp (HTree.leaf fb b) (by simp)
        simpa [HTree.weight] using this
      have hmin : ∀ x ∈ t'.syms, x ≠ a → fb ≤ t'.freqS x := by
        intro x hx hxa
        rw [runH_syms hrun' x] at hx
        obtain ⟨u, hu, hxu⟩ := hx
        rcases List.mem_cons.mp hu with rfl | hu
        · have : x = a := by simpa [HTree.syms] using hxu
          exact absurd this hxa
        · obtain ⟨w, s, rfl⟩ := hleaves' u (by simp [hu])
          have hxs : x = s := by simpa [HTree.syms] using hxu
          have hwfb : fb ≤ w := by
            have := hq (HTree.leaf w s) hu
            simpa [HTree.weight] using this
          have hws : (HTree.leaf w s).freqS x = w := by
            simp [HTree.freqS, hxs]
          rw [runH_freqS hrun' x]
          refine hwfb.trans ?_
          rw [← hws]
          exact mem_le_sum (List.mem_map_of_mem _ (by simp [hu]))
      have hopt_t := optimum_splitLeaf t' a b fa fb hcons'' hopt'' ham hbm hab
        hfa' hfab hmin
      have hzcons : z.consistent := by
        refine ⟨?_, trivial, trivial⟩
        rw [Finset.eq_empty_iff_forall_not_mem]
        intro y hy
        rw [Finset.mem_inter] at hy
        have h1 : y = a := by simpa [HTree.syms] using hy.1
        have h2 : y = b := by simpa [HTree.syms] using hy.2
        exact hab (h1.symm.trans h2)
      have hcons_t : (substS a z t').consistent := by
        apply consistent_substS a z t' hcons'' hzcons
        intro x hx hmem3
        have : x = a ∨ x = b := by simpa [HTree.syms] using hx
        rcases this with rfl | rfl
        · rfl
        · exact absurd hmem3 hbm
      rw [hteq]
      exact ⟨hcons_t, hopt_t⟩

/-- In a consistent optimum tree, a strictly more frequent symbol sits no
deeper than a strictly less frequent one. -/
theorem optimum_mono {α : Type} [DecidableEq α] (t : HTree α) (a b : α)
    (hc : t.consistent) (hopt : t.optimum) (ha : a ∈ t.syms) (hb : b ∈ t.syms)
    (hlt : t.freqS b < t.freqS a) : t.depthS a ≤ t.depthS b := by
  by_contra hgt
  push_neg at hgt
  have hab : a ≠ b := by
    intro h
    have : t.freqS b < t.freqS b := h ▸ hlt
    omega
  obtain ⟨hcons, hsyms, hfreq, hcost⟩ := swapLeaves_valid t a b hc hab ha hb
  have hopt' := hopt _ hcons hsyms.symm hfreq.symm
  have hstrict : t.freqS a * t.depthS b + t.freqS b * t.depthS a
      < t.freqS a * t.depthS a + t.freqS b * t.depthS b := by
    obtain ⟨s, hs⟩ := Nat.exists_eq_add_of_lt hlt
    obtain ⟨r, hr⟩ := Nat.exists_eq_add_of_lt hgt
    rw [hs, hr]
    nlinarith
  linarith [hcost, hstrict, hopt']

/-- Association-list lookup distributes over append, first list first. -/
theorem lookup_append {α β : Type} [DecidableEq α] (xs ys : List (α × β)) (a : α) :
    List.lookup a (xs ++ ys) = match List.lookup a xs with
      | some v => some v
      | none => List.lookup a ys := by
  induction xs with
  | nil => rfl
  | cons p ps ih =>
    cases p with
    | mk k v =>
      simp only [List.cons_append, List.lookup]
      cases hak : (a == k) with
      | true => rfl
      | false => exact ih

/-- Lookup misses when no key matches. -/
theorem lookup_eq_none_of_keys {α β : Type} [DecidableEq α] (l : List (α × β)) (a : α)
    (h : ∀ p ∈ l, p.1 ≠ a) : List.lookup a l = none := by
  induction l with
  | nil => rfl
  | cons p ps ih =>
    cases p with
    | mk k v =>
      have hk : k ≠ a := h (k, v) (by simp)
      have hbeq : (a == k) = false := by
        rw [beq_eq_false_iff_ne]
        exact fun hh => hk hh.symm
      simp only [List.lookup, hbeq]
      exact ih (fun q hq => h q (by simp [hq]))

/-- Every key produced by `generate_codes` is a symbol of the tree. -/
theorem gen_codes_mem_syms {α : Type} [DecidableEq α] :
    ∀ (nd : Node α) (th : HTree α), toHTree nd = some th → ∀ (pfx : List Bool),
      ∀ p ∈ generate_codes nd pfx, p.1 ∈ th.syms := by
  intro nd
  induction nd with
  | null => intro th h; exact absurd h (by simp [toHTree])
  | mk char w l r ihl ihr =>
    cases char with
    | some c =>
      intro th h pfx p hp
      have hth : th = HTree.leaf w c := by
        simp only [toHTree, Option.some.injEq] at h
        exact h.symm
      subst hth
      have : p = (c, if pfx.isEmpty then [false] else pfx) := by
        simpa [generate_codes] using hp
      rw [this]
      simp [HTree.syms]
    | none =>
      intro th h pfx p hp
      cases h1 : toHTree l with
      | none => simp [toHTree, h1] at h
      | some t1 =>
        cases h2 : toHTree r with
        | none => simp [toHTree, h1, h2] at h
        | some t2 =>
          have hth : th = HTree.node t1 t2 := by
            simp only [toHTree, h1, h2, Option.some.injEq] at h
            exact h.symm
          subst hth
          have hp' : p ∈ generate_codes l (pfx ++ [false])
              ∨ p ∈ generate_codes r (pfx ++ [true]) := by
            simpa [generate_codes] using hp
          rcases hp' with hp' | hp'
          · exact Finset.mem_union_left _ (ihl t1 h1 _ p hp')
          · exact Finset.mem_union_right _ (ihr t2 h2 _ p hp')

/-- The code assigned to a present symbol has length prefix + leaf depth
(the root special case excluded by the guard). -/
theorem gen_codes_length {α : Type} [DecidableEq α] :
    ∀ (nd : Node α) (th : HTree α), toHTree nd = some th → th.consistent →
      ∀ (pfx : List Bool) (a : α), a ∈ th.syms →
        (pfx ≠ [] ∨ ∃ x y, th = HTree.node x y) →
        ∃ code, List.lookup a (generate_codes nd pfx) = some code ∧
          code.length = pfx.length + th.depthS a := by
  intro nd
  induction nd with
  | null => intro th h; exact absurd h (by simp [toHTree])
  | mk char w l r ihl ihr =>
    cases char with
    | some c =>
      intro th h hcons pfx a ha hguard
      have hth : th = HTree.leaf w c := by
        simp only [toHTree, Option.some.injEq] at h
        exact h.symm
      subst hth
      have hac : a = c := by simpa [HTree.syms] using ha
      rcases hguard with hne | ⟨x, y, hxy⟩
      · have hemp : pfx.isEmpty = false := by
          cases pfx with
          | nil => exact absurd rfl hne
          | cons q qs => rfl
        refine ⟨pfx, ?_, ?_⟩
        · subst hac
          simp [generate_codes, hemp, List.lookup]
        · simp [HTree.depthS]
      · exact absurd hxy (by simp)
    | none =>
      intro th h hcons pfx a ha hguard
      cases h1 : toHTree l with
      | none => simp [toHTree, h1] at h
      | some t1 =>
        cases h2 : toHTree r with
        | none => simp [toHTree, h1, h2] at h
        | some t2 =>
          have hth : th = HTree.node t1 t2 := by
            simp only [toHTree, h1, h2, Option.some.injEq] at h
            exact h.symm
          subst hth
          obtain ⟨hd, hc1, hc2⟩ := hcons
          have ha' : a ∈ t1.syms ∨ a ∈ t2.syms := by
            simpa [HTree.syms] using ha
          have hgen : generate_codes (Node.mk none w l r) pfx
              = generate_codes l (pfx ++ [false]) ++ generate_codes r (pfx ++ [true]) :=
            rfl
          rw [hgen]
          rcases ha' with ha1 | ha2
          · obtain ⟨code, hlk, hlen⟩ :=
              ihl t1 h1 hc1 (pfx ++ [false]) a ha1 (Or.inl (by simp))
            refine ⟨code, ?_, ?_⟩
            · rw [lookup_append, hlk]
            · rw [hlen]
              have hdep : (HTree.node t1 t2).depthS a = t1.depthS a + 1 := by
                show (if a ∈ t1.syms then t1.depthS a + 1
                    else if a ∈ t2.syms then t2.depthS a + 1 else 0) = _
                rw [if_pos ha1]
              rw [hdep]
              simp
              omega
          · have ha1 : a ∉ t1.syms := fun hh => not_mem_of_inter_empty hd hh ha2
            obtain ⟨code, hlk, hlen⟩ :=
              ihr t2 h2 hc2 (pfx ++ [true]) a ha2 (Or.inl (by simp))
            have hnone : List.lookup a (generate_codes l (pfx ++ [false])) = none := by
              apply lookup_eq_none_of_keys
              intro p hp hpa
              exact ha1 (hpa ▸ gen_codes_mem_syms l t1 h1 _ p hp)
            refine ⟨code, ?_, ?_⟩
            · rw [lookup_append, hnone]
              exact hlk
            · rw [hlen]
              have hdep : (HTree.node t1 t2).depthS a = t2.depthS a + 1 := by
                show (if a ∈ t1.syms then t1.depthS a + 1
                    else if a ∈ t2.syms then t2.depthS a + 1 else 0) = _
                rw [if_neg ha1, if_pos ha2]
              rw [hdep]
              simp
              omega

/-- In a table with distinct keys, a key determines its count. -/
theorem key_unique {α : Type} [DecidableEq α] :
    ∀ (ft : List (α × Nat)) (x : α) (u v : Nat), (ft.map Prod.fst).Nodup →
      (x, u) ∈ ft → (x, v) ∈ ft → u = v := by
  intro ft
  induction ft with
  | nil => intro x u v _ h; cases h
  | cons p ps ih =>
    intro x u v hnd hu hv
    rw [List.map_cons, List.nodup_cons] at hnd
    obtain ⟨hp1, hnd'⟩ := hnd
    rcases List.mem_cons.mp hu with hu1 | hu1 <;>
      rcases List.mem_cons.mp hv with hv1 | hv1
    · have h2 : (x, u) = (x, v) := hu1.trans hv1.symm
      injection h2
    · exfalso
      apply hp1
      rw [← hu1]
      have := List.mem_map_of_mem Prod.fst hv1
      exact this
    · exfalso
      apply hp1
      rw [← hv1]
      have := List.mem_map_of_mem Prod.fst hu1
      exact this
    · exact ih x u v hnd' hu1 hv1

/-- Summing the indicator of a key over a distinct-key table returns its
count. -/
theorem sum_table_freq {α : Type} [DecidableEq α] :
    ∀ (ft : List (α × Nat)) (c : α) (fc : Nat), (ft.map Prod.fst).Nodup →
      (c, fc) ∈ ft → (ft.map fun p => if c = p.1 then p.2 else 0).sum = fc := by
  intro ft
  induction ft with
  | nil => intro c fc _ h; cases h
  | cons p ps ih =>
    intro c fc hnd hmem
    rw [List.map_cons, List.nodup_cons] at hnd
    obtain ⟨hp1, hnd'⟩ := hnd
    simp only [List.map_cons, List.sum_cons]
    rcases List.mem_cons.mp hmem with rfl | hmem
    · rw [if_pos rfl]
      have hz : (ps.map fun q => if c = q.1 then q.2 else 0).sum = 0 := by
        apply List.sum_eq_zero
        intro x hx
        obtain ⟨q, hq, rfl⟩ := List.mem_map.mp hx
        have hcq : ¬c = q.1 := by
          intro h
          apply hp1
          show c ∈ List.map Prod.fst ps
          rw [h]
          exact List.mem_map_of_mem Prod.fst hq
        rw [if_neg hcq]
      rw [hz]
      simp
    · have hcp : ¬c = p.1 := by
        intro h
        apply hp1
        show p.1 ∈ List.map Prod.fst ps
        rw [← h]
        exact List.mem_map_of_mem Prod.fst hmem
      rw [if_neg hcp, ih c fc hnd' hmem]
      omega

/-- C7: optimality ordering — for a frequency table with distinct symbols,
whenever symbol `a` has a strictly larger count than symbol `b`, the code
`generate_codes` assigns to `a` on the tree `build_huffman_tree` returns is
no longer than the code assigned to `b`. -/
theorem c7_optimality_ordering {α : Type} [DecidableEq α]
    (ft : List (α × Nat)) (a b : α) (fa fb : Nat)
    (hnd : (ft.map Prod.fst).Nodup) (hamem : (a, fa) ∈ ft) (hbmem : (b, fb) ∈ ft)
    (hlt : fb < fa) :
    ∃ (t : Node α) (ca cb : List Bool),
      build_huffman_tree ft = some t ∧
      List.lookup a (generate_codes t []) = some ca ∧
      List.lookup b (generate_codes t []) = some cb ∧
      ca.length ≤ cb.length := by
  have hne : ft ≠ [] := fun h => by rw [h] at hamem; cases hamem
  obtain ⟨t, th, hbuild, hth, hrun⟩ := build_huffman_tree_run ft hne
  have hleaves : ∀ u ∈ ft.map (fun p => HTree.leaf p.2 p.1),
      ∃ w s, u = HTree.leaf w s := by
    intro u hu
    obtain ⟨p, hp, rfl⟩ := List.mem_map.mp hu
    exact ⟨p.2, p.1, rfl⟩
  have hpw : (ft.map fun p => HTree.leaf p.2 p.1).Pairwise
      (fun u v => u.syms ∩ v.syms = ∅) := by
    rw [List.pairwise_map]
    have hk : ft.Pairwise (fun p q : α × Nat => p.1 ≠ q.1) :=
      List.pairwise_map.mp hnd
    refine hk.imp ?_
    intro p q hpq
    rw [Finset.eq_empty_iff_forall_not_mem]
    intro y hy
    rw [Finset.mem_inter] at hy
    have h1 : y = p.1 := by simpa [HTree.syms] using hy.1
    have h2 : y = q.1 := by simpa [HTree.syms] using hy.2
    exact hpq (h1.symm.trans h2)
  obtain ⟨hcons, hopt⟩ := runH_optimum (ft.map fun p => HTree.leaf p.2 p.1).length _
    th (le_refl _) hrun hleaves hpw
  have hmemth : ∀ (c : α) (fc : Nat), (c, fc) ∈ ft → c ∈ th.syms := by
    intro c fc hc
    rw [runH_syms hrun c]
    exact ⟨HTree.leaf fc c, List.mem_map_of_mem _ hc, by simp [HTree.syms]⟩
  have ha := hmemth a fa hamem
  have hb := hmemth b fb hbmem
  have hab : a ≠ b := by
    intro h
    subst h
    have := key_unique ft a fa fb hnd hamem hbmem
    omega
  have hfreq : ∀ (c : α) (fc : Nat), (c, fc) ∈ ft → th.freqS c = fc := by
    intro c fc hc
    rw [runH_freqS hrun c, List.map_map]
    exact sum_table_freq ft c fc hnd hc
  have hmono : th.depthS a ≤ th.depthS b := by
    apply optimum_mono th a b hcons hopt ha hb
    rw [hfreq a fa hamem, hfreq b fb hbmem]
    exact hlt
  have hnode : ∃ x y, th = HTree.node x y := by
    cases th with
    | leaf w c =>
      exfalso
      simp only [HTree.syms, Finset.mem_singleton] at ha hb
      exact hab (ha.trans hb.symm)
    | node x y => exact ⟨x, y, rfl⟩
  obtain ⟨ca, hlka, hlena⟩ :=
    gen_codes_length t th hth hcons [] a ha (Or.inr hnode)
  obtain ⟨cb, hlkb, hlenb⟩ :=
    gen_codes_length t th hth hcons [] b hb (Or.inr hnode)
  refine ⟨t, ca, cb, hbuild, hlka, hlkb, ?_⟩
  rw [hlena, hlenb]
  simpa using hmono

/-- Witness: the table `[(0, 2), (1, 1)]` satisfies the hypotheses of the
optimality-ordering theorem, and the conclusion holds for it. -/
theorem c7_optimality_ordering_witness :
    (([((0 : Nat), (2 : Nat)), (1, 1)].map Prod.fst).Nodup ∧
        ((0 : Nat), (2 : Nat)) ∈ [((0 : Nat), (2 : Nat)), (1, 1)] ∧
        ((1 : Nat), (1 : Nat)) ∈ [((0 : Nat), (2 : Nat)), (1, 1)] ∧ (1 : Nat) < 2) ∧
      ∃ (t : Node Nat) (ca cb : List Bool),
        build_huffman_tree [((0 : Nat), (2 : Nat)), (1, 1)] = some t ∧
        List.lookup 0 (generate_codes t []) = some ca ∧
        List.lookup 1 (generate_codes t []) = some cb ∧
        ca.length ≤ cb.length :=
  ⟨⟨by decide, by decide, by decide, by decide⟩,
    c7_optimality_ordering [((0 : Nat), (2 : Nat)), (1, 1)] 0 1 2 1
      (by decide) (by decide) (by decide) (by decide)⟩
